import Mathlib

/-!
Verification development for the `loppler` local backup/restore utility
(`src/main.rs`).  Paths are modelled as character lists (the `display()`
string of a Rust `Path`), parsed into components for filesystem access;
the filesystem is a tree of entries.  Machine-level details that the
program never branches on (permissions, timestamps, actual zstd/tar byte
streams) are abstracted: an archive file is modelled as a file carrying
its list of `(entry name, tree)` pairs, exactly the data `tar::Builder`
receives from `append_path` / `append_dir_all`.
-/

namespace Loppler

abbrev Bytes := List Nat
abbrev PathStr := List Char
abbrev Comp := List Char
abbrev CPath := List Comp

/-- Coercion from string literals to the character-list path model. -/
def strL (s : String) : PathStr := s.toList

/-- Split a character list at every slash; always returns at least one
(possibly empty) segment, like splitting a string on a separator. -/
def splitSlash : PathStr → List Comp
  | [] => [[]]
  | c :: rest =>
    if c = '/' then [] :: splitSlash rest
    else
      match splitSlash rest with
      | [] => [[c]]
      | s :: ss => (c :: s) :: ss

/-- Keep a path segment as a component: drop empty segments (doubled or
trailing slashes) and the current-directory marker, as Rust's
`Path::components` does. -/
def keepComp (s : Comp) : Bool := !(s.isEmpty) && s ≠ strL "."

/-- Components of a path string. -/
def parsePath (p : PathStr) : CPath := (splitSlash p).filter keepComp

/-- Join components back into a path string with single slashes. -/
def joinComps : CPath → PathStr
  | [] => []
  | [c] => c
  | c :: c2 :: rest => c ++ '/' :: joinComps (c2 :: rest)

/-- Join a path string and a trailing component, as `Path::join` does for
a relative single-component addition. -/
def pathJoin (p : PathStr) (q : PathStr) : PathStr :=
  if p = [] then q else p ++ '/' :: q

/-- Rust `Path::file_name`: the final component, or `None` when the path
has none (root) or ends in the parent-directory marker. -/
def fileName (p : PathStr) : Option Comp :=
  match (parsePath p).getLast? with
  | none => none
  | some c => if c = strL ".." then none else some c

/-- Rust `Path::with_file_name`: replace the final component, keeping the
parent (path strings are kept in normalized relative form). -/
def withFileName (p : PathStr) (new : Comp) : PathStr :=
  pathJoin (joinComps (parsePath p).dropLast) new

/-- Rust `str::ends_with`. -/
def endsWithL (s sfx : PathStr) : Bool := decide (sfx <:+ s)

/-- Rust `str::strip_suffix`. -/
def stripSuffix? (s sfx : PathStr) : Option PathStr :=
  if sfx <:+ s then some (s.take (s.length - sfx.length)) else none

/-- Well-formedness of a single path component: nonempty, slash-free,
and not the current-directory marker. -/
def compWF (c : Comp) : Prop := c ≠ [] ∧ '/' ∉ c ∧ c ≠ strL "."

/-! Filesystem model. -/

/-- Error kinds of the `io::Error` values the program creates or passes
through: `notFound` for the explicitly constructed
`io::ErrorKind::NotFound` errors, `io` for every other underlying error. -/
inductive ErrKind where
  | notFound
  | io
deriving DecidableEq

/-- Outcome of running a fallible piece of the program: a returned value,
a returned error, or a Rust panic (with the static part of its message).
`diverged` marks an infinite loop (the confirmation prompt at end of
input). -/
inductive RResult (α : Type) where
  | ok : α → RResult α
  | err : ErrKind → RResult α
  | panicked : String → RResult α
  | diverged : RResult α

mutual
/-- A filesystem entry: a regular file with byte content, a regular file
holding an encoded zstd-compressed tar archive (kept as the entry list
the tar builder received), a directory with named children, or any other
entry kind (device, socket, ...). -/
inductive Entry where
  | file : Bytes → Entry
  | archiveFile : Kids → Entry
  | dir : Kids → Entry
  | other : Entry
/-- Named children of a directory, or named entries of an archive (where
the name is a full path string rather than a single component). -/
inductive Kids where
  | nil : Kids
  | cons : List Char → Entry → Kids → Kids
end

/-- Build a child list from an ordinary list of named entries. -/
def kidsOf : List (List Char × Entry) → Kids
  | [] => Kids.nil
  | (n, e) :: rest => Kids.cons n e (kidsOf rest)

/-- The child names, in order. -/
def kidNames : Kids → List Comp
  | Kids.nil => []
  | Kids.cons n _ rest => n :: kidNames rest

def lookupC : Kids → Comp → Option Entry
  | Kids.nil, _ => none
  | Kids.cons n e ds, c => if n = c then some e else lookupC ds c

def setChild : Kids → Comp → Entry → Kids
  | Kids.nil, c, v => Kids.cons c v Kids.nil
  | Kids.cons n e ds, c, v =>
    if n = c then Kids.cons n v ds else Kids.cons n e (setChild ds c v)

def eraseChild : Kids → Comp → Kids
  | Kids.nil, _ => Kids.nil
  | Kids.cons n e ds, c =>
    if n = c then eraseChild ds c else Kids.cons n e (eraseChild ds c)

/-- Resolve a component path inside an entry. -/
def getE : Entry → CPath → Option Entry
  | e, [] => some e
  | Entry.dir ds, c :: rest =>
    (match lookupC ds c with
     | some e => getE e rest
     | none => none)
  | _, _ :: _ => none

/-- Write an entry at a path whose parent chain must already consist of
directories (the final entry itself may be created or overwritten); this
is the write performed by `fs::copy` and `fs::File::create`. -/
def setAtD : Entry → CPath → Entry → Option Entry
  | _, [], v => some v
  | Entry.dir ds, [c], v => some (Entry.dir (setChild ds c v))
  | Entry.dir ds, c :: c2 :: rest, v =>
    (match lookupC ds c with
     | some e => (setAtD e (c2 :: rest) v).map (fun e2 => Entry.dir (setChild ds c e2))
     | none => none)
  | _, _ :: _, _ => none

/-- Fresh directory chain ending in the given entry. -/
def forceFresh : CPath → Entry → Entry
  | [], v => v
  | c :: rest, v => Entry.dir (Kids.cons c (forceFresh rest v) Kids.nil)

/-- Write an entry at a path, creating intermediate directories as
needed (used for the tar `unpack` step and for placing the result of a
directory mirror whose ancestors `fs::create_dir_all` just created). -/
def forceSet : Entry → CPath → Entry → Entry
  | _, [], v => v
  | Entry.dir ds, c :: rest, v =>
    (match lookupC ds c with
     | some e => Entry.dir (setChild ds c (forceSet e rest v))
     | none => Entry.dir (setChild ds c (forceFresh rest v)))
  | _, c :: rest, v => Entry.dir (Kids.cons c (forceFresh rest v) Kids.nil)

/-- Fresh chain of empty directories. -/
def freshDirs : CPath → Entry
  | [] => Entry.dir Kids.nil
  | c :: rest => Entry.dir (Kids.cons c (freshDirs rest) Kids.nil)

/-- Rust `fs::create_dir_all`: create every missing directory on the
path, failing if an existing entry on it is not a directory. -/
def createDirAllS : Entry → CPath → Except ErrKind Entry
  | Entry.dir ds, [] => Except.ok (Entry.dir ds)
  | Entry.dir ds, c :: rest =>
    (match lookupC ds c with
     | some e => (createDirAllS e rest).map (fun e2 => Entry.dir (setChild ds c e2))
     | none => Except.ok (Entry.dir (setChild ds c (freshDirs rest))))
  | _, _ => Except.error ErrKind.io

/-- Remove the entry at a path if its parent chain resolves; used for
`fs::remove_file` / `fs::remove_dir_all`. -/
def removeAt : Entry → CPath → Entry
  | e, [] => e
  | Entry.dir ds, [c] => Entry.dir (eraseChild ds c)
  | Entry.dir ds, c :: c2 :: rest =>
    (match lookupC ds c with
     | some e => Entry.dir (setChild ds c (removeAt e (c2 :: rest)))
     | none => Entry.dir ds)
  | e, _ :: _ => e

/-- Rust `Path::is_file` on a resolved entry (archives are plain files on
disk). -/
def isFileO : Option Entry → Bool
  | some (Entry.file _) => true
  | some (Entry.archiveFile _) => true
  | _ => false

/-- Rust `Path::is_dir` on a resolved entry. -/
def isDirO : Option Entry → Bool
  | some (Entry.dir _) => true
  | _ => false

/-- Rust `fs::copy src dst`: read a regular file and write its bytes to
`dst`, overwriting a non-directory entry there; fails if `src` is not a
regular file, if `dst` is a directory, or if `dst`'s parent chain is
missing. -/
def fsCopy (fs : Entry) (src dst : CPath) : Except ErrKind Entry :=
  match getE fs src with
  | some (Entry.file c) =>
    if isDirO (getE fs dst) then Except.error ErrKind.io
    else
      match setAtD fs dst (Entry.file c) with
      | some fs2 => Except.ok fs2
      | none => Except.error ErrKind.notFound
  | some (Entry.archiveFile a) =>
    if isDirO (getE fs dst) then Except.error ErrKind.io
    else
      match setAtD fs dst (Entry.archiveFile a) with
      | some fs2 => Except.ok fs2
      | none => Except.error ErrKind.notFound
  | some _ => Except.error ErrKind.io
  | none => Except.error ErrKind.notFound

/-! The program, translated from `src/main.rs`. -/

/-- Class a path name falls into in `restore`'s dispatch chain
(`main.rs:216-243`).  The chain tests, in order, the dot-less suffixes
`tar.zstd` / `tar.zst`, then `bak`, then `bak.d`. -/
inductive ArtifactClass where
  | archive
  | plainFile
  | plainDir
  | unknown
deriving DecidableEq

/-- Suffix dispatch of `restore` (`main.rs:217,224,233`): the `if` /
`else if` chain on `path.display().to_string()`. -/
def classify (s : PathStr) : ArtifactClass :=
  if endsWithL s (strL "tar.zstd") || endsWithL s (strL "tar.zst") then ArtifactClass.archive
  else if endsWithL s (strL "bak") then ArtifactClass.plainFile
  else if endsWithL s (strL "bak.d") then ArtifactClass.plainDir
  else ArtifactClass.unknown

/-- `add_extension` (`main.rs:169-177`): append `sfx` to the file name;
`expect` panics when the path has no file name. -/
def add_extension (p : PathStr) (sfx : PathStr) : RResult PathStr :=
  match fileName p with
  | none => RResult.panicked "this string is weird, no file name"
  | some name => RResult.ok (withFileName p (name ++ sfx))

/-- `remove_extension` (`main.rs:179-185`): strip `"." ++ sfx` from the
path string, panicking when it is not a suffix. -/
def remove_extension (p : PathStr) (sfx : PathStr) : RResult PathStr :=
  match stripSuffix? p ('.' :: sfx) with
  | none => RResult.panicked "that path did not have that suffix"
  | some short => RResult.ok short

/-- Body of `copy_dir_all` (`main.rs:270-289`) below the top-level
`create_dir_all`: mirror the source directory's children onto the
destination directory's children, recursing into directories (each
recursive call starts with `create_dir_all`, which fails when the
destination child exists and is not a directory), copying regular files
over non-directories, and skipping any other entry kind with a warning.
Returns the destination children as far as they were written, plus the
first error if one aborted the iteration. -/
def mirrorKids : Kids → Kids → Kids × Option ErrKind
  | Kids.nil, ds => (ds, none)
  | Kids.cons n (Entry.dir sub) rest, ds =>
    (match lookupC ds n with
     | some (Entry.dir ds2) =>
       (match mirrorKids sub ds2 with
        | (ds3, none) => mirrorKids rest (setChild ds n (Entry.dir ds3))
        | (ds3, some e) => (setChild ds n (Entry.dir ds3), some e))
     | none =>
       (match mirrorKids sub Kids.nil with
        | (ds3, none) => mirrorKids rest (setChild ds n (Entry.dir ds3))
        | (ds3, some e) => (setChild ds n (Entry.dir ds3), some e))
     | some _ => (ds, some ErrKind.io))
  | Kids.cons n (Entry.file c) rest, ds =>
    (match lookupC ds n with
     | some (Entry.dir _) => (ds, some ErrKind.io)
     | _ => mirrorKids rest (setChild ds n (Entry.file c)))
  | Kids.cons n (Entry.archiveFile a) rest, ds =>
    (match lookupC ds n with
     | some (Entry.dir _) => (ds, some ErrKind.io)
     | _ => mirrorKids rest (setChild ds n (Entry.archiveFile a)))
  | Kids.cons _ Entry.other rest, ds => mirrorKids rest ds

/-- `copy_dir_all` (`main.rs:270-289`) acting on the filesystem state:
`fs::create_dir_all(dst)`, then iterate over the entries of `src`. -/
def copyDirAllS (fs : Entry) (src dst : CPath) : RResult Unit × Entry :=
  match createDirAllS fs dst with
  | Except.error e => (RResult.err e, fs)
  | Except.ok fs1 =>
    match getE fs1 src with
    | some (Entry.dir srcKids) =>
      (match getE fs1 dst with
       | some (Entry.dir ds) =>
         (match mirrorKids srcKids ds with
          | (ds2, none) => (RResult.ok (), forceSet fs1 dst (Entry.dir ds2))
          | (ds2, some e) => (RResult.err e, forceSet fs1 dst (Entry.dir ds2)))
       | _ => (RResult.err ErrKind.io, fs1))
    | some _ => (RResult.err ErrKind.io, fs1)
    | none => (RResult.err ErrKind.notFound, fs1)

/-- Tar `Archive::unpack` into `outC`: recreate every recorded entry
under the output directory at its recorded name. -/
def unpack : Entry → CPath → Kids → Entry
  | fs, _, Kids.nil => fs
  | fs, outC, Kids.cons n e rest => unpack (forceSet fs (outC ++ parsePath n) e) outC rest

/-- `backup_file` (`main.rs:246-256`).  With compression, `make_archive`
creates the archive file and `append_path(path)` records the single
entry under the name `path` itself (the full path string, not just its
file name); without, `fs::copy` duplicates the bytes. -/
def backup_file (fs : Entry) (p : PathStr) (compress : Bool) : RResult PathStr × Entry :=
  if compress then
    match add_extension p (strL ".tar.zstd") with
    | RResult.ok a =>
      -- `File::create` fails when the artifact path is an existing directory
      if isDirO (getE fs (parsePath a)) then (RResult.err ErrKind.io, fs)
      else
      (match setAtD fs (parsePath a) (Entry.archiveFile Kids.nil) with
       | none => (RResult.err ErrKind.notFound, fs)
       | some fs1 =>
         -- `File::create` succeeded; now `append_path(path)` reads `p`.
         match getE fs (parsePath p) with
         | some (Entry.file c) =>
           (match setAtD fs (parsePath a) (Entry.archiveFile (Kids.cons p (Entry.file c) Kids.nil)) with
            | some fs2 => (RResult.ok a, fs2)
            | none => (RResult.err ErrKind.notFound, fs1)
           )
         | some (Entry.dir _) =>
           -- tar records a bare directory entry for a directory path
           (match setAtD fs (parsePath a) (Entry.archiveFile (Kids.cons p (Entry.dir Kids.nil) Kids.nil)) with
            | some fs2 => (RResult.ok a, fs2)
            | none => (RResult.err ErrKind.notFound, fs1)
           )
         | some _ => (RResult.err ErrKind.io, fs1)
         | none => (RResult.err ErrKind.notFound, fs1)
      )
    | RResult.panicked m => (RResult.panicked m, fs)
    | _ => (RResult.err ErrKind.io, fs)
  else
    match add_extension p (strL ".bak") with
    | RResult.ok a =>
      (match fsCopy fs (parsePath p) (parsePath a) with
       | Except.ok fs2 => (RResult.ok a, fs2)
       | Except.error e => (RResult.err e, fs))
    | RResult.panicked m => (RResult.panicked m, fs)
    | _ => (RResult.err ErrKind.io, fs)

/-- `backup_dir` (`main.rs:258-268`).  With compression,
`append_dir_all(path, path)` records the directory tree under the name
`path` itself; without, `copy_dir_all` mirrors it into the `.bak.d`
artifact. -/
def backup_dir (fs : Entry) (p : PathStr) (compress : Bool) : RResult PathStr × Entry :=
  if compress then
    match add_extension p (strL ".tar.zstd") with
    | RResult.ok a =>
      if isDirO (getE fs (parsePath a)) then (RResult.err ErrKind.io, fs)
      else
      (match setAtD fs (parsePath a) (Entry.archiveFile Kids.nil) with
       | none => (RResult.err ErrKind.notFound, fs)
       | some fs1 =>
         match getE fs (parsePath p) with
         | some (Entry.dir kids) =>
           (match setAtD fs (parsePath a) (Entry.archiveFile (Kids.cons p (Entry.dir kids) Kids.nil)) with
            | some fs2 => (RResult.ok a, fs2)
            | none => (RResult.err ErrKind.notFound, fs1)
           )
         | some _ => (RResult.err ErrKind.io, fs1)
         | none => (RResult.err ErrKind.notFound, fs1)
      )
    | RResult.panicked m => (RResult.panicked m, fs)
    | _ => (RResult.err ErrKind.io, fs)
  else
    match add_extension p (strL ".bak.d") with
    | RResult.ok a =>
      (match copyDirAllS fs (parsePath p) (parsePath a) with
       | (RResult.ok _, fs2) => (RResult.ok a, fs2)
       | (RResult.err e, fs2) => (RResult.err e, fs2)
       | (RResult.panicked m, fs2) => (RResult.panicked m, fs2)
       | (RResult.diverged, fs2) => (RResult.diverged, fs2))
    | RResult.panicked m => (RResult.panicked m, fs)
    | _ => (RResult.err ErrKind.io, fs)

/-- `restore` (`main.rs:187-244`): existence and directory preconditions
first (each failure an explicit `io::ErrorKind::NotFound` error), then
the suffix dispatch with its per-class file-type panics. -/
def restore (fs : Entry) (p outDir : PathStr) : RResult Unit × Entry :=
  let pC := parsePath p
  let outC := parsePath outDir
  if (getE fs pC).isNone then (RResult.err ErrKind.notFound, fs)
  else if (getE fs outC).isNone then (RResult.err ErrKind.notFound, fs)
  else if !(isDirO (getE fs outC)) then (RResult.err ErrKind.notFound, fs)
  else
    match classify p with
    | ArtifactClass.archive =>
      if !(isFileO (getE fs pC)) then (RResult.panicked "archive name but not an archive", fs)
      else
        match getE fs pC with
        | some (Entry.archiveFile es) => (RResult.ok (), unpack fs outC es)
        | _ => (RResult.err ErrKind.io, fs)
    | ArtifactClass.plainFile =>
      if !(isFileO (getE fs pC)) then (RResult.panicked "bak name but not a file", fs)
      else
        match remove_extension p (strL "bak") with
        | RResult.ok target =>
          (match fileName target with
           | none => (RResult.panicked "called Option unwrap on a None value", fs)
           | some name =>
             match fsCopy fs pC (outC ++ [name]) with
             | Except.ok fs2 => (RResult.ok (), fs2)
             | Except.error e => (RResult.err e, fs))
        | RResult.panicked m => (RResult.panicked m, fs)
        | _ => (RResult.err ErrKind.io, fs)
    | ArtifactClass.plainDir =>
      if isFileO (getE fs pC) then (RResult.panicked "bak.d name but not a directory", fs)
      else
        match remove_extension p (strL "bak.d") with
        | RResult.ok target =>
          (match fileName target with
           | none => (RResult.panicked "called Option unwrap on a None value", fs)
           | some name => copyDirAllS fs pC (outC ++ [name]))
        | RResult.panicked m => (RResult.panicked m, fs)
        | _ => (RResult.err ErrKind.io, fs)
    | ArtifactClass.unknown => (RResult.panicked "unknown file", fs)

/-- One round of whitespace trimming plus lowercasing, as
`buf.trim().to_lowercase()` does. -/
def trimLower (s : List Char) : List Char :=
  (((s.dropWhile Char.isWhitespace).reverse.dropWhile Char.isWhitespace).reverse).map
    Char.toLower

/-- The loop of `confirm` (`main.rs:143-156`).  `read_line` appends the
next line (with its newline) to `buf`, which is never cleared between
iterations; `none` means the answer lines ran out with the loop still
running. -/
def confirmLoop : List Char → List (List Char) → Option Bool
  | _, [] => none
  | buf, l :: rest =>
    let b := trimLower (buf ++ l ++ ['\n'])
    if b = strL "y" ∨ b = strL "yes" then some true
    else if b = [] ∨ b = strL "n" ∨ b = strL "no" then some false
    else confirmLoop b rest

/-- `confirm` (`main.rs:143-156`) applied to a sequence of interactive
answer lines (each given without its trailing newline). -/
def confirm (answers : List (List Char)) : Option Bool :=
  confirmLoop [] answers

/-- `recursive_remove` (`main.rs:158-167`): directories are removed
recursively, files via `remove_file`; anything else — including a path
that no longer exists — is skipped with a warning and reported as `Ok`. -/
def recursiveRemoveS (fs : Entry) (pC : CPath) : RResult Unit × Entry :=
  match getE fs pC with
  | some (Entry.dir _) => (RResult.ok (), removeAt fs pC)
  | some (Entry.file _) => (RResult.ok (), removeAt fs pC)
  | some (Entry.archiveFile _) => (RResult.ok (), removeAt fs pC)
  | _ => (RResult.ok (), fs)

/-- The `Commands::Restore` arm of `main` (`main.rs:126-137`): run
`restore`, propagate its failure with `?`, and afterwards delete the
artifact only when `delete` is set and either the global `-y` flag was
given or the interactive prompt answered yes. -/
def mainRestore (fs : Entry) (p outDir : PathStr) (delete flagYes : Bool)
    (answers : List (List Char)) : RResult Unit × Entry :=
  match restore fs p outDir with
  | (RResult.ok _, fs1) =>
    if delete then
      if flagYes then recursiveRemoveS fs1 (parsePath p)
      else
        match confirm answers with
        | some true => recursiveRemoveS fs1 (parsePath p)
        | some false => (RResult.ok (), fs1)
        | none => (RResult.diverged, fs1)
    else (RResult.ok (), fs1)
  | (r, fs1) => (r, fs1)

mutual
/-- Recursive well-formedness of a directory tree: every directory's
child names are distinct (as they are on a real filesystem). -/
def entryWF : Entry → Bool
  | Entry.dir ds => decide ((kidNames ds).Nodup) && kidsWF ds
  | _ => true
/-- Well-formedness of every entry in a child list. -/
def kidsWF : Kids → Bool
  | Kids.nil => true
  | Kids.cons _ e ds => entryWF e && kidsWF ds
end

/-! Example filesystems used as concrete inputs. -/

/-- A file with an unclassifiable name, a file whose name ends in `bak`
without the dot, and an empty output directory. -/
def fsA : Entry := Entry.dir (kidsOf
  [(strL "foo", Entry.file [1]), (strL "xbak", Entry.file [2]),
   (strL "out", Entry.dir Kids.nil)])

/-- A directory named like a `.bak` file, a file named like a `.bak.d`
directory, and an empty output directory. -/
def fsB : Entry := Entry.dir (kidsOf
  [(strL "x.bak", Entry.dir Kids.nil), (strL "y.bak.d", Entry.file [2]),
   (strL "out", Entry.dir Kids.nil)])

/-- One source file and an output directory, for round-trips. -/
def fsC : Entry := Entry.dir (kidsOf
  [(strL "f", Entry.file [7, 8]), (strL "out", Entry.dir Kids.nil)])

/-- A nested source file, for the compressed-backup entry-name claim. -/
def fsD : Entry := Entry.dir (kidsOf
  [(strL "d", Entry.dir (kidsOf [(strL "b", Entry.file [9])]))])

/-- Children of a small nested source directory, for the mirror claims. -/
def srcKidsE : Kids := kidsOf
  [(strL "a", Entry.file [1]),
   (strL "d", Entry.dir (kidsOf [(strL "b", Entry.file [2])]))]

/-- A filesystem holding the nested source directory `s`. -/
def fsE : Entry := Entry.dir (kidsOf [(strL "s", Entry.dir srcKidsE)])

/-- A file and a nested directory side by side, for the backup claims. -/
def fsF : Entry := Entry.dir (kidsOf
  [(strL "f", Entry.file [3]),
   (strL "d", Entry.dir (kidsOf [(strL "b", Entry.file [4])]))])

/-- A well-formed `.bak` artifact file and an empty output directory,
for the deletion-gating claim. -/
def fsG : Entry := Entry.dir (kidsOf
  [(strL "f.bak", Entry.file [1]), (strL "o", Entry.dir Kids.nil)])

/-- Induction over a child list alone (no induction into the entries). -/
def kidsInd (P : Kids → Prop) (h0 : P Kids.nil)
    (h1 : ∀ n e rest, P rest → P (Kids.cons n e rest)) : ∀ ds, P ds
  | Kids.nil => h0
  | Kids.cons n e rest => h1 n e rest (kidsInd P h0 h1 rest)

/-- Entry kinds that `recursive_remove` actually unlinks; an `other`
entry (device, socket, ...) is only skipped with a warning. -/
def removableE : Entry → Bool
  | Entry.other => false
  | _ => true

/-- A state change confined below `tgt`: every entry at a path that
`tgt` is not a prefix of still exists afterwards, unchanged unless it is
a directory that had a descendant modified (in which case it is still a
directory). -/
def preservedOutside (fs fs2 : Entry) (tgt : CPath) : Prop :=
  ∀ q e, ¬ (tgt <+: q) → getE fs q = some e →
    ∃ e2, getE fs2 q = some e2 ∧
      (e2 = e ∨ ((∃ ds, e = Entry.dir ds) ∧ ∃ ds2, e2 = Entry.dir ds2))

/-! Basic lemmas about the path-string model. -/

theorem splitSlash_ne_nil (l : PathStr) : splitSlash l ≠ [] := by
  induction l with
  | nil => simp [splitSlash]
  | cons c rest ih =>
    by_cases h : c = '/'
    · simp [splitSlash, h]
    · simp only [splitSlash, if_neg h]
      cases hs : splitSlash rest with
      | nil => simp
      | cons s ss => simp

theorem splitSlash_append (a b : PathStr) :
    splitSlash (a ++ '/' :: b) = splitSlash a ++ splitSlash b := by
  induction a with
  | nil => simp [splitSlash]
  | cons c rest ih =>
    by_cases h : c = '/'
    · simp [splitSlash, h, ih]
    · simp only [List.cons_append, splitSlash, if_neg h]
      simp only [List.append_eq]
      rw [ih]
      cases hs : splitSlash rest with
      | nil => exact absurd hs (splitSlash_ne_nil rest)
      | cons s ss => simp

theorem splitSlash_no_slash (l : PathStr) (h : '/' ∉ l) : splitSlash l = [l] := by
  induction l with
  | nil => rfl
  | cons c rest ih =>
    have hc : c ≠ '/' := fun hc => h (hc ▸ List.mem_cons_self c rest)
    have hr : '/' ∉ rest := fun hr => h (List.mem_cons_of_mem c hr)
    simp [splitSlash, hc, ih hr]

theorem splitSlash_mem_no_slash (l : PathStr) (s : Comp) (hs : s ∈ splitSlash l) :
    '/' ∉ s := by
  induction l generalizing s with
  | nil =>
    simp [splitSlash] at hs
    simp [hs]
  | cons c rest ih =>
    by_cases h : c = '/'
    · simp only [splitSlash, if_pos h] at hs
      rcases List.mem_cons.mp hs with h1 | h2
      · simp [h1]
      · exact ih s h2
    · simp only [splitSlash, if_neg h] at hs
      cases hsp : splitSlash rest with
      | nil => exact absurd hsp (splitSlash_ne_nil rest)
      | cons t ts =>
        rw [hsp] at hs
        rcases List.mem_cons.mp hs with h1 | h2
        · subst h1
          intro hmem
          rcases List.mem_cons.mp hmem with h3 | h4
          · exact h h3.symm
          · exact ih t (hsp ▸ List.mem_cons_self t ts) h4
        · exact ih s (hsp ▸ List.mem_cons_of_mem t h2)

theorem parsePath_append (a b : PathStr) :
    parsePath (a ++ '/' :: b) = parsePath a ++ parsePath b := by
  simp [parsePath, splitSlash_append, List.filter_append]

theorem parsePath_single (c : Comp) (h : compWF c) : parsePath c = [c] := by
  rcases h with ⟨h1, h2, h3⟩
  simp [parsePath, splitSlash_no_slash c h2, keepComp, List.filter, h1, h3,
    List.isEmpty_iff]

theorem parsePath_comp_wf (p : PathStr) (c : Comp) (h : c ∈ parsePath p) : compWF c := by
  simp only [parsePath, List.mem_filter] at h
  rcases h with ⟨hmem, hkeep⟩
  simp only [keepComp, Bool.and_eq_true, List.isEmpty_iff, Bool.not_eq_true',
    decide_eq_true_eq, bne_iff_ne, ne_eq] at hkeep
  refine ⟨?_, splitSlash_mem_no_slash p c hmem, ?_⟩
  · intro hc
    rw [hc] at hkeep
    simp at hkeep
  · intro hc
    exact absurd hc (by simpa using hkeep.2)

theorem joinComps_ne_nil (c : Comp) (cs : CPath) (hc : c ≠ []) :
    joinComps (c :: cs) ≠ [] := by
  cases cs with
  | nil => simpa [joinComps]
  | cons c2 rest => simp [joinComps, hc]

theorem parse_joinComps (cs : CPath) (h : ∀ c ∈ cs, compWF c) :
    parsePath (joinComps cs) = cs := by
  induction cs with
  | nil => rfl
  | cons c rest ih =>
    cases rest with
    | nil =>
      exact parsePath_single c (h c (List.mem_cons_self c []))
    | cons c2 rest2 =>
      have : joinComps (c :: c2 :: rest2) = c ++ '/' :: joinComps (c2 :: rest2) := rfl
      rw [this, parsePath_append, parsePath_single c (h c (List.mem_cons_self c _)),
        ih (fun x hx => h x (List.mem_cons_of_mem c hx))]
      rfl

theorem pathJoin_suffix (p q : PathStr) : q <:+ pathJoin p q := by
  unfold pathJoin
  by_cases h : p = []
  · simp [h]
  · simpa [h] using List.suffix_append (p ++ ['/']) q

theorem pathJoin_append (p q r : PathStr) :
    pathJoin p (q ++ r) = pathJoin p q ++ r := by
  unfold pathJoin
  by_cases h : p = [] <;> simp [h]

theorem parse_withFileName (p : PathStr) (new : Comp) (hw : compWF new) :
    parsePath (withFileName p new) = (parsePath p).dropLast ++ [new] := by
  unfold withFileName
  have hwf : ∀ c ∈ (parsePath p).dropLast, compWF c := fun c hc =>
    parsePath_comp_wf p c (List.Sublist.mem hc (List.dropLast_sublist _))
  cases hcs : (parsePath p).dropLast with
  | nil =>
    simp [pathJoin, joinComps, parsePath_single new hw]
  | cons c cs =>
    have hcne : c ≠ [] := (hwf c (hcs ▸ List.mem_cons_self c cs)).1
    have hjn : joinComps (c :: cs) ≠ [] := joinComps_ne_nil c cs hcne
    rw [pathJoin, if_neg hjn, parsePath_append, ← hcs, parse_joinComps _ hwf,
      parsePath_single new hw]

theorem fileName_decomp (p : PathStr) (name : Comp) (h : fileName p = some name) :
    parsePath p = (parsePath p).dropLast ++ [name] ∧ compWF name ∧ name ≠ strL ".." := by
  unfold fileName at h
  split at h
  · exact absurd h (by simp)
  next c hg =>
    by_cases hc : c = strL ".."
    · rw [if_pos hc] at h; exact absurd h (by simp)
    · rw [if_neg hc] at h
      have hcn : c = name := by simpa using h
      subst hcn
      have hne : parsePath p ≠ [] := by
        intro hnil; rw [hnil] at hg; simp at hg
      have hlast : (parsePath p).getLast hne = c := by
        have h2 := List.getLast?_eq_getLast (parsePath p) hne
        rw [hg] at h2
        simpa using h2.symm
      have hdec : parsePath p = (parsePath p).dropLast ++ [c] := by
        conv_lhs => rw [← List.dropLast_append_getLast hne]
        rw [hlast]
      refine ⟨hdec, ?_, hc⟩
      refine parsePath_comp_wf p c ?_
      rw [hdec]
      exact List.mem_append_right _ (List.mem_cons_self c [])

theorem suffix_getLast? (s sfx : PathStr) (h : sfx <:+ s) (hne : sfx ≠ []) :
    s.getLast? = sfx.getLast? := by
  rcases h with ⟨t, rfl⟩
  exact List.getLast?_append_of_ne_nil t hne

theorem stripSuffix?_append (pre sfx : PathStr) :
    stripSuffix? (pre ++ sfx) sfx = some pre := by
  unfold stripSuffix?
  rw [if_pos (List.suffix_append pre sfx)]
  congr 1
  have : (pre ++ sfx).length - sfx.length = pre.length := by
    simp
  rw [this, List.take_left]

/-! Lemmas about the filesystem primitives. -/

theorem lookupC_setChild_self (ds : Kids) (c : Comp) (v : Entry) :
    lookupC (setChild ds c v) c = some v := by
  induction ds using kidsInd with
  | h0 => simp [setChild, lookupC]
  | h1 n e tl ih =>
    by_cases h : n = c
    · simp [setChild, lookupC, h]
    · simp [setChild, lookupC, h, ih]

theorem lookupC_setChild_ne (ds : Kids) (c d : Comp) (v : Entry) (h : d ≠ c) :
    lookupC (setChild ds c v) d = lookupC ds d := by
  induction ds using kidsInd with
  | h0 =>
    have hcd : ¬ c = d := fun hh => h hh.symm
    simp [setChild, lookupC, hcd]
  | h1 n e tl ih =>
    have hcd : ¬ c = d := fun hh => h hh.symm
    by_cases hn : n = c
    · have hnd : ¬ n = d := fun hh => h (hh ▸ hn)
      simp [setChild, lookupC, hn, hnd, hcd]
    · by_cases hd2 : n = d
      · simp [setChild, lookupC, hn, hd2, h, hcd]
      · simp [setChild, lookupC, hn, hd2, ih]

theorem setChild_lookup_eq (ds : Kids) (c : Comp) (v : Entry)
    (h : lookupC ds c = some v) : setChild ds c v = ds := by
  induction ds using kidsInd with
  | h0 => simp [lookupC] at h
  | h1 n e tl ih =>
    by_cases hn : n = c
    · simp only [lookupC, if_pos hn, Option.some.injEq] at h
      simp [setChild, hn, h]
    · simp only [lookupC, if_neg hn] at h
      simp [setChild, hn, ih h]

theorem lookupC_eraseChild_self (ds : Kids) (c : Comp) :
    lookupC (eraseChild ds c) c = none := by
  induction ds using kidsInd with
  | h0 => simp [eraseChild, lookupC]
  | h1 n e tl ih =>
    by_cases hn : n = c
    · simpa [eraseChild, hn] using ih
    · simpa [eraseChild, lookupC, hn] using ih

theorem getE_dir_cons (ds : Kids) (c : Comp) (rest : CPath) :
    getE (Entry.dir ds) (c :: rest) = (lookupC ds c).bind (fun e => getE e rest) := by
  cases hl : lookupC ds c with
  | none => simp only [getE, hl]; rfl
  | some e => simp only [getE, hl]; rfl

theorem getE_nondir_cons (fs : Entry) (c : Comp) (rest : CPath)
    (h : ∀ ds, fs ≠ Entry.dir ds) : getE fs (c :: rest) = none := by
  cases fs with
  | dir ds => exact absurd rfl (h ds)
  | file b => rfl
  | archiveFile es => rfl
  | other => rfl

theorem setAtD_dir_cons2 (ds : Kids) (c c2 : Comp) (rest : CPath) (v : Entry) :
    setAtD (Entry.dir ds) (c :: c2 :: rest) v =
      (lookupC ds c).bind
        (fun e => (setAtD e (c2 :: rest) v).map (fun e2 => Entry.dir (setChild ds c e2))) := by
  cases hl : lookupC ds c with
  | none => simp only [setAtD, hl]; rfl
  | some e => simp only [setAtD, hl]; rfl

theorem setAtD_nondir (fs : Entry) (p : CPath) (v : Entry) (hne : p ≠ [])
    (h : ∀ ds, fs ≠ Entry.dir ds) : setAtD fs p v = none := by
  cases p with
  | nil => exact absurd rfl hne
  | cons c rest =>
    cases fs with
    | dir ds => exact absurd rfl (h ds)
    | file b => cases rest <;> rfl
    | archiveFile es => cases rest <;> rfl
    | other => cases rest <;> rfl

theorem getE_setAtD_sub (a : CPath) : ∀ (fs v fs2 : Entry) (r : CPath),
    setAtD fs a v = some fs2 → getE fs2 (a ++ r) = getE v r := by
  induction a with
  | nil =>
    intro fs v fs2 r h
    simp only [setAtD, Option.some.injEq] at h
    subst h
    simp
  | cons c a2 ih =>
    intro fs v fs2 r h
    have hfs : ∃ ds, fs = Entry.dir ds := by
      cases fs with
      | dir ds => exact ⟨ds, rfl⟩
      | file b => rw [setAtD_nondir _ _ _ (by simp) (by intro ds hh; cases hh)] at h; cases h
      | archiveFile es =>
        rw [setAtD_nondir _ _ _ (by simp) (by intro ds hh; cases hh)] at h; cases h
      | other => rw [setAtD_nondir _ _ _ (by simp) (by intro ds hh; cases hh)] at h; cases h
    obtain ⟨ds, rfl⟩ := hfs
    cases a2 with
    | nil =>
      simp only [setAtD, Option.some.injEq] at h
      subst h
      simp [getE_dir_cons, lookupC_setChild_self]
    | cons c2 a3 =>
      rw [setAtD_dir_cons2] at h
      cases hl : lookupC ds c with
      | none => rw [hl] at h; cases h
      | some e =>
        rw [hl, Option.some_bind] at h
        cases hs : setAtD e (c2 :: a3) v with
        | none => rw [hs] at h; cases h
        | some e2 =>
          rw [hs, Option.map_some'] at h
          injection h with h
          subst h
          simpa [getE_dir_cons, lookupC_setChild_self] using ih e v e2 r hs

theorem getE_setAtD_frame (a : CPath) : ∀ (fs v fs2 : Entry) (q : CPath),
    setAtD fs a v = some fs2 → ¬ (a <+: q) → ¬ (q <+: a) →
    getE fs2 q = getE fs q := by
  induction a with
  | nil =>
    intro fs v fs2 q h h1 h2
    exact absurd List.nil_prefix h1
  | cons c a2 ih =>
    intro fs v fs2 q h h1 h2
    cases q with
    | nil => exact absurd List.nil_prefix h2
    | cons d q2 =>
      have hfs : ∃ ds, fs = Entry.dir ds := by
        cases fs with
        | dir ds => exact ⟨ds, rfl⟩
        | file b => rw [setAtD_nondir _ _ _ (by simp) (by intro ds hh; cases hh)] at h; cases h
        | archiveFile es =>
          rw [setAtD_nondir _ _ _ (by simp) (by intro ds hh; cases hh)] at h; cases h
        | other => rw [setAtD_nondir _ _ _ (by simp) (by intro ds hh; cases hh)] at h; cases h
      obtain ⟨ds, rfl⟩ := hfs
      by_cases hdc : d = c
      · subst hdc
        have h1' : ¬ (a2 <+: q2) := fun hp => h1 (List.cons_prefix_cons.mpr ⟨rfl, hp⟩)
        have h2' : ¬ (q2 <+: a2) := fun hp => h2 (List.cons_prefix_cons.mpr ⟨rfl, hp⟩)
        cases a2 with
        | nil => exact absurd List.nil_prefix h1'
        | cons c2 a3 =>
          rw [setAtD_dir_cons2] at h
          cases hl : lookupC ds d with
          | none => rw [hl] at h; cases h
          | some e =>
            rw [hl, Option.some_bind] at h
            cases hs : setAtD e (c2 :: a3) v with
            | none => rw [hs] at h; cases h
            | some e2 =>
              rw [hs, Option.map_some'] at h
              injection h with h
              subst h
              simp [getE_dir_cons, lookupC_setChild_self, hl, ih e v e2 q2 hs h1' h2']
      · cases a2 with
        | nil =>
          simp only [setAtD, Option.some.injEq] at h
          subst h
          simp [getE_dir_cons, lookupC_setChild_ne ds c d v hdc]
        | cons c2 a3 =>
          rw [setAtD_dir_cons2] at h
          cases hl : lookupC ds c with
          | none => rw [hl] at h; cases h
          | some e =>
            rw [hl, Option.some_bind] at h
            cases hs : setAtD e (c2 :: a3) v with
            | none => rw [hs] at h; cases h
            | some e2 =>
              rw [hs, Option.map_some'] at h
              injection h with h
              subst h
              simp [getE_dir_cons, lookupC_setChild_ne ds c d e2 hdc]

theorem getE_setAtD_anc (a : CPath) : ∀ (fs v fs2 : Entry) (q : CPath),
    setAtD fs a v = some fs2 → (q <+: a) → q ≠ a →
    (∃ ds, getE fs q = some (Entry.dir ds)) ∧
    (∃ ds, getE fs2 q = some (Entry.dir ds)) := by
  induction a with
  | nil =>
    intro fs v fs2 q h h1 h2
    exact absurd (List.prefix_nil.mp h1) h2
  | cons c a2 ih =>
    intro fs v fs2 q h h1 h2
    have hfs : ∃ ds, fs = Entry.dir ds := by
      cases fs with
      | dir ds => exact ⟨ds, rfl⟩
      | file b => rw [setAtD_nondir _ _ _ (by simp) (by intro ds hh; cases hh)] at h; cases h
      | archiveFile es =>
        rw [setAtD_nondir _ _ _ (by simp) (by intro ds hh; cases hh)] at h; cases h
      | other => rw [setAtD_nondir _ _ _ (by simp) (by intro ds hh; cases hh)] at h; cases h
    obtain ⟨ds, rfl⟩ := hfs
    cases q with
    | nil =>
      refine ⟨⟨ds, rfl⟩, ?_⟩
      cases a2 with
      | nil =>
        simp only [setAtD, Option.some.injEq] at h
        exact ⟨setChild ds c v, by rw [← h]; rfl⟩
      | cons c2 a3 =>
        rw [setAtD_dir_cons2] at h
        cases hl : lookupC ds c with
        | none => rw [hl] at h; cases h
        | some e =>
          rw [hl, Option.some_bind] at h
          cases hs : setAtD e (c2 :: a3) v with
          | none => rw [hs] at h; cases h
          | some e2 =>
            rw [hs, Option.map_some'] at h
            injection h with h
            exact ⟨setChild ds c e2, by rw [← h]; rfl⟩
    | cons d q2 =>
      obtain ⟨hdc, hq2⟩ := List.cons_prefix_cons.mp h1
      subst hdc
      have hq2ne : q2 ≠ a2 := fun hh => h2 (by rw [hh])
      cases a2 with
      | nil => exact absurd (List.prefix_nil.mp hq2) hq2ne
      | cons c2 a3 =>
        rw [setAtD_dir_cons2] at h
        cases hl : lookupC ds d with
        | none => rw [hl] at h; cases h
        | some e =>
          rw [hl, Option.some_bind] at h
          cases hs : setAtD e (c2 :: a3) v with
          | none => rw [hs] at h; cases h
          | some e2 =>
            rw [hs, Option.map_some'] at h
            injection h with h
            subst h
            obtain ⟨⟨ds1, hds1⟩, ⟨ds2, hds2⟩⟩ := ih e v e2 q2 hs hq2 hq2ne
            refine ⟨⟨ds1, ?_⟩, ⟨ds2, ?_⟩⟩
            · simpa [getE_dir_cons, hl] using hds1
            · simpa [getE_dir_cons, lookupC_setChild_self] using hds2

theorem getE_some_anc (p : CPath) : ∀ (fs e : Entry) (q : CPath),
    getE fs p = some e → (q <+: p) → q ≠ p →
    ∃ ds, getE fs q = some (Entry.dir ds) := by
  induction p with
  | nil =>
    intro fs e q h h1 h2
    exact absurd (List.prefix_nil.mp h1) h2
  | cons c p2 ih =>
    intro fs e q h h1 h2
    cases fs with
    | dir ds =>
      rw [getE_dir_cons] at h
      cases hl : lookupC ds c with
      | none => rw [hl] at h; cases h
      | some e1 =>
        rw [hl, Option.some_bind] at h
        cases q with
        | nil => exact ⟨ds, rfl⟩
        | cons d q2 =>
          obtain ⟨hdc, hq2⟩ := List.cons_prefix_cons.mp h1
          subst hdc
          have hq2ne : q2 ≠ p2 := fun hh => h2 (by rw [hh])
          obtain ⟨ds1, hds1⟩ := ih e1 e q2 h hq2 hq2ne
          exact ⟨ds1, by simpa [getE_dir_cons, hl] using hds1⟩
    | file b => rw [getE_nondir_cons _ _ _ (by intro ds hh; cases hh)] at h; cases h
    | archiveFile es => rw [getE_nondir_cons _ _ _ (by intro ds hh; cases hh)] at h; cases h
    | other => rw [getE_nondir_cons _ _ _ (by intro ds hh; cases hh)] at h; cases h

theorem setAtD_isSome (p : CPath) : ∀ (fs v : Entry),
    (∀ q, q <+: p → q ≠ p → ∃ ds, getE fs q = some (Entry.dir ds)) →
    (setAtD fs p v).isSome = true := by
  induction p with
  | nil => intro fs v _; simp [setAtD]
  | cons c p2 ih =>
    intro fs v h
    obtain ⟨ds, hds⟩ := h [] List.nil_prefix (by simp)
    have hfs : fs = Entry.dir ds := by simpa [getE] using hds
    subst hfs
    cases p2 with
    | nil => simp [setAtD]
    | cons c2 p3 =>
      obtain ⟨ds2, hds2⟩ := h [c] (List.cons_prefix_cons.mpr ⟨rfl, List.nil_prefix⟩)
        (by simp)
      rw [getE_dir_cons] at hds2
      have hl : lookupC ds c = some (Entry.dir ds2) := by
        cases hll : lookupC ds c with
        | none => rw [hll] at hds2; cases hds2
        | some e1 =>
          rw [hll, Option.some_bind] at hds2
          have hge : getE e1 [] = some e1 := by cases e1 <;> rfl
          rw [hge] at hds2
          exact hds2
      have hrec : (setAtD (Entry.dir ds2) (c2 :: p3) v).isSome = true := by
        refine ih (Entry.dir ds2) v ?_
        intro q hq hqne
        have h3 := h (c :: q) (List.cons_prefix_cons.mpr ⟨rfl, hq⟩)
          (fun hh => hqne (by injection hh))
        obtain ⟨ds3, hds3⟩ := h3
        rw [getE_dir_cons, hl, Option.some_bind] at hds3
        exact ⟨ds3, hds3⟩
      cases hs : setAtD (Entry.dir ds2) (c2 :: p3) v with
      | none => rw [hs] at hrec; cases hrec
      | some e2 => rw [setAtD_dir_cons2, hl, Option.some_bind, hs]; rfl

theorem getE_forceFresh_sub (a : CPath) (v : Entry) (r : CPath) :
    getE (forceFresh a v) (a ++ r) = getE v r := by
  induction a with
  | nil => simp [forceFresh]
  | cons c a2 ih => simp [forceFresh, getE_dir_cons, lookupC, ih]

theorem getE_forceFresh_frame (a : CPath) : ∀ (v : Entry) (q : CPath),
    ¬ (a <+: q) → ¬ (q <+: a) → getE (forceFresh a v) q = none := by
  induction a with
  | nil => intro v q h1 _; exact absurd List.nil_prefix h1
  | cons c a2 ih =>
    intro v q h1 h2
    cases q with
    | nil => exact absurd List.nil_prefix h2
    | cons d q2 =>
      by_cases hdc : d = c
      · subst hdc
        have h1' : ¬ (a2 <+: q2) := fun hp => h1 (List.cons_prefix_cons.mpr ⟨rfl, hp⟩)
        have h2' : ¬ (q2 <+: a2) := fun hp => h2 (List.cons_prefix_cons.mpr ⟨rfl, hp⟩)
        simp [forceFresh, getE_dir_cons, lookupC, ih v q2 h1' h2']
      · have hcd : ¬ c = d := fun hh => hdc hh.symm
        simp [forceFresh, getE_dir_cons, lookupC, hcd]

theorem getE_forceFresh_anc (a : CPath) : ∀ (v : Entry) (q : CPath),
    (q <+: a) → q ≠ a → ∃ ds, getE (forceFresh a v) q = some (Entry.dir ds) := by
  induction a with
  | nil => intro v q h1 h2; exact absurd (List.prefix_nil.mp h1) h2
  | cons c a2 ih =>
    intro v q h1 h2
    cases q with
    | nil => exact ⟨Kids.cons c (forceFresh a2 v) Kids.nil, rfl⟩
    | cons d q2 =>
      obtain ⟨hdc, hq2⟩ := List.cons_prefix_cons.mp h1
      subst hdc
      have hq2ne : q2 ≠ a2 := fun hh => h2 (by rw [hh])
      obtain ⟨ds, hds⟩ := ih v q2 hq2 hq2ne
      exact ⟨ds, by simpa [forceFresh, getE_dir_cons, lookupC] using hds⟩

theorem forceSet_dir_cons_some (ds : Kids) (c : Comp) (rest : CPath) (v e : Entry)
    (hl : lookupC ds c = some e) :
    forceSet (Entry.dir ds) (c :: rest) v =
      Entry.dir (setChild ds c (forceSet e rest v)) := by
  simp only [forceSet, hl]

theorem forceSet_dir_cons_none (ds : Kids) (c : Comp) (rest : CPath) (v : Entry)
    (hl : lookupC ds c = none) :
    forceSet (Entry.dir ds) (c :: rest) v =
      Entry.dir (setChild ds c (forceFresh rest v)) := by
  simp only [forceSet, hl]

theorem forceSet_nondir_cons (fs : Entry) (c : Comp) (rest : CPath) (v : Entry)
    (h : ∀ ds, fs ≠ Entry.dir ds) :
    forceSet fs (c :: rest) v = Entry.dir (Kids.cons c (forceFresh rest v) Kids.nil) := by
  cases fs with
  | dir ds => exact absurd rfl (h ds)
  | file b => rfl
  | archiveFile es => rfl
  | other => rfl

theorem getE_forceSet_sub (a : CPath) : ∀ (fs v : Entry) (r : CPath),
    getE (forceSet fs a v) (a ++ r) = getE v r := by
  induction a with
  | nil => intro fs v r; simp [forceSet]
  | cons c a2 ih =>
    intro fs v r
    cases fs with
    | dir ds =>
      cases hl : lookupC ds c with
      | none =>
        rw [forceSet_dir_cons_none ds c a2 v hl]
        simp [getE_dir_cons, lookupC_setChild_self, getE_forceFresh_sub]
      | some e =>
        rw [forceSet_dir_cons_some ds c a2 v e hl]
        simp [getE_dir_cons, lookupC_setChild_self, ih]
    | file b =>
      rw [forceSet_nondir_cons _ _ _ _ (by intro ds hh; cases hh)]
      simp [getE_dir_cons, lookupC, getE_forceFresh_sub]
    | archiveFile es =>
      rw [forceSet_nondir_cons _ _ _ _ (by intro ds hh; cases hh)]
      simp [getE_dir_cons, lookupC, getE_forceFresh_sub]
    | other =>
      rw [forceSet_nondir_cons _ _ _ _ (by intro ds hh; cases hh)]
      simp [getE_dir_cons, lookupC, getE_forceFresh_sub]

theorem getE_forceSet_frame (a : CPath) : ∀ (fs v : Entry) (q : CPath),
    ¬ (a <+: q) → ¬ (q <+: a) → getE (forceSet fs a v) q = getE fs q := by
  induction a with
  | nil => intro fs v q h1 _; exact absurd List.nil_prefix h1
  | cons c a2 ih =>
    intro fs v q h1 h2
    cases q with
    | nil => exact absurd List.nil_prefix h2
    | cons d q2 =>
      by_cases hdc : d = c
      · subst hdc
        have h1' : ¬ (a2 <+: q2) := fun hp => h1 (List.cons_prefix_cons.mpr ⟨rfl, hp⟩)
        have h2' : ¬ (q2 <+: a2) := fun hp => h2 (List.cons_prefix_cons.mpr ⟨rfl, hp⟩)
        cases fs with
        | dir ds =>
          cases hl : lookupC ds d with
          | none =>
            rw [forceSet_dir_cons_none ds d a2 v hl]
            simp [getE_dir_cons, lookupC_setChild_self, hl,
              getE_forceFresh_frame a2 v q2 h1' h2']
          | some e =>
            rw [forceSet_dir_cons_some ds d a2 v e hl]
            simp [getE_dir_cons, lookupC_setChild_self, hl, ih e v q2 h1' h2']
        | file b =>
          rw [forceSet_nondir_cons _ _ _ _ (by intro ds hh; cases hh)]
          simp [getE_dir_cons, lookupC, getE_forceFresh_frame a2 v q2 h1' h2', getE]
        | archiveFile es =>
          rw [forceSet_nondir_cons _ _ _ _ (by intro ds hh; cases hh)]
          simp [getE_dir_cons, lookupC, getE_forceFresh_frame a2 v q2 h1' h2', getE]
        | other =>
          rw [forceSet_nondir_cons _ _ _ _ (by intro ds hh; cases hh)]
          simp [getE_dir_cons, lookupC, getE_forceFresh_frame a2 v q2 h1' h2', getE]
      · cases fs with
        | dir ds =>
          cases hl : lookupC ds c with
          | none =>
            rw [forceSet_dir_cons_none ds c a2 v hl]
            simp [getE_dir_cons, lookupC_setChild_ne ds c d _ hdc]
          | some e =>
            rw [forceSet_dir_cons_some ds c a2 v e hl]
            simp [getE_dir_cons, lookupC_setChild_ne ds c d _ hdc]
        | file b =>
          rw [forceSet_nondir_cons _ _ _ _ (by intro ds hh; cases hh)]
          have hcd : ¬ c = d := fun hh => hdc hh.symm
          simp [getE_dir_cons, lookupC, hcd, getE]
        | archiveFile es =>
          rw [forceSet_nondir_cons _ _ _ _ (by intro ds hh; cases hh)]
          have hcd : ¬ c = d := fun hh => hdc hh.symm
          simp [getE_dir_cons, lookupC, hcd, getE]
        | other =>
          rw [forceSet_nondir_cons _ _ _ _ (by intro ds hh; cases hh)]
          have hcd : ¬ c = d := fun hh => hdc hh.symm
          simp [getE_dir_cons, lookupC, hcd, getE]

theorem getE_forceSet_anc (a : CPath) : ∀ (fs v : Entry) (q : CPath),
    (q <+: a) → q ≠ a → ∃ ds, getE (forceSet fs a v) q = some (Entry.dir ds) := by
  induction a with
  | nil => intro fs v q h1 h2; exact absurd (List.prefix_nil.mp h1) h2
  | cons c a2 ih =>
    intro fs v q h1 h2
    cases q with
    | nil =>
      cases fs with
      | dir ds =>
        cases hl : lookupC ds c with
        | none =>
          exact ⟨setChild ds c (forceFresh a2 v),
            by rw [forceSet_dir_cons_none ds c a2 v hl]; rfl⟩
        | some e =>
          exact ⟨setChild ds c (forceSet e a2 v),
            by rw [forceSet_dir_cons_some ds c a2 v e hl]; rfl⟩
      | file b =>
        exact ⟨Kids.cons c (forceFresh a2 v) Kids.nil,
          by rw [forceSet_nondir_cons _ _ _ _ (by intro ds hh; cases hh)]; rfl⟩
      | archiveFile es =>
        exact ⟨Kids.cons c (forceFresh a2 v) Kids.nil,
          by rw [forceSet_nondir_cons _ _ _ _ (by intro ds hh; cases hh)]; rfl⟩
      | other =>
        exact ⟨Kids.cons c (forceFresh a2 v) Kids.nil,
          by rw [forceSet_nondir_cons _ _ _ _ (by intro ds hh; cases hh)]; rfl⟩
    | cons d q2 =>
      obtain ⟨hdc, hq2⟩ := List.cons_prefix_cons.mp h1
      subst hdc
      have hq2ne : q2 ≠ a2 := fun hh => h2 (by rw [hh])
      cases fs with
      | dir ds =>
        cases hl : lookupC ds d with
        | none =>
          obtain ⟨ds2, hds2⟩ := getE_forceFresh_anc a2 v q2 hq2 hq2ne
          refine ⟨ds2, ?_⟩
          rw [forceSet_dir_cons_none ds d a2 v hl]
          simpa [getE_dir_cons, lookupC_setChild_self] using hds2
        | some e =>
          obtain ⟨ds2, hds2⟩ := ih e v q2 hq2 hq2ne
          refine ⟨ds2, ?_⟩
          rw [forceSet_dir_cons_some ds d a2 v e hl]
          simpa [getE_dir_cons, lookupC_setChild_self] using hds2
      | file b =>
        obtain ⟨ds2, hds2⟩ := getE_forceFresh_anc a2 v q2 hq2 hq2ne
        refine ⟨ds2, ?_⟩
        rw [forceSet_nondir_cons _ _ _ _ (by intro ds hh; cases hh)]
        simpa [getE_dir_cons, lookupC] using hds2
      | archiveFile es =>
        obtain ⟨ds2, hds2⟩ := getE_forceFresh_anc a2 v q2 hq2 hq2ne
        refine ⟨ds2, ?_⟩
        rw [forceSet_nondir_cons _ _ _ _ (by intro ds hh; cases hh)]
        simpa [getE_dir_cons, lookupC] using hds2
      | other =>
        obtain ⟨ds2, hds2⟩ := getE_forceFresh_anc a2 v q2 hq2 hq2ne
        refine ⟨ds2, ?_⟩
        rw [forceSet_nondir_cons _ _ _ _ (by intro ds hh; cases hh)]
        simpa [getE_dir_cons, lookupC] using hds2


theorem getE_removeAt_self (p : CPath) : ∀ (fs : Entry), p ≠ [] →
    getE (removeAt fs p) p = none := by
  induction p with
  | nil => intro fs h; exact absurd rfl h
  | cons c p2 ih =>
    intro fs _
    cases p2 with
    | nil =>
      cases fs with
      | dir ds => simp [removeAt, getE_dir_cons, lookupC_eraseChild_self]
      | file b => rfl
      | archiveFile es => rfl
      | other => rfl
    | cons c2 p3 =>
      cases fs with
      | dir ds =>
        cases hl : lookupC ds c with
        | none => simp only [removeAt, hl, getE_dir_cons]; rfl
        | some e =>
          simp only [removeAt, hl]
          rw [getE_dir_cons, lookupC_setChild_self, Option.some_bind]
          exact ih e (by simp)
      | file b => rfl
      | archiveFile es => rfl
      | other => rfl

theorem freshDirs_get (a : CPath) : getE (freshDirs a) a = some (Entry.dir Kids.nil) := by
  induction a with
  | nil => rfl
  | cons c a2 ih => simp [freshDirs, getE_dir_cons, lookupC, ih]

theorem freshDirs_frame (a : CPath) : ∀ (q : CPath),
    ¬ (a <+: q) → ¬ (q <+: a) → getE (freshDirs a) q = none := by
  induction a with
  | nil => intro q h1 _; exact absurd List.nil_prefix h1
  | cons c a2 ih =>
    intro q h1 h2
    cases q with
    | nil => exact absurd List.nil_prefix h2
    | cons d q2 =>
      by_cases hdc : d = c
      · subst hdc
        have h1' : ¬ (a2 <+: q2) := fun hp => h1 (List.cons_prefix_cons.mpr ⟨rfl, hp⟩)
        have h2' : ¬ (q2 <+: a2) := fun hp => h2 (List.cons_prefix_cons.mpr ⟨rfl, hp⟩)
        simp [freshDirs, getE_dir_cons, lookupC, ih q2 h1' h2']
      · have hcd : ¬ c = d := fun hh => hdc hh.symm
        simp [freshDirs, getE_dir_cons, lookupC, hcd]

theorem freshDirs_anc (a : CPath) : ∀ (q : CPath),
    (q <+: a) → q ≠ a → ∃ ds, getE (freshDirs a) q = some (Entry.dir ds) := by
  induction a with
  | nil => intro q h1 h2; exact absurd (List.prefix_nil.mp h1) h2
  | cons c a2 ih =>
    intro q h1 h2
    cases q with
    | nil => exact ⟨Kids.cons c (freshDirs a2) Kids.nil, rfl⟩
    | cons d q2 =>
      obtain ⟨hdc, hq2⟩ := List.cons_prefix_cons.mp h1
      subst hdc
      have hq2ne : q2 ≠ a2 := fun hh => h2 (by rw [hh])
      obtain ⟨ds, hds⟩ := ih q2 hq2 hq2ne
      exact ⟨ds, by simpa [freshDirs, getE_dir_cons, lookupC] using hds⟩

theorem createDirAll_dir_cons (ds : Kids) (c : Comp) (rest : CPath) :
    createDirAllS (Entry.dir ds) (c :: rest) =
      (match lookupC ds c with
       | some e => (createDirAllS e rest).map (fun e2 => Entry.dir (setChild ds c e2))
       | none => Except.ok (Entry.dir (setChild ds c (freshDirs rest)))) := by
  rfl

theorem createDirAll_nondir (fs : Entry) (p : CPath)
    (h : ∀ ds, fs ≠ Entry.dir ds) : createDirAllS fs p = Except.error ErrKind.io := by
  cases fs with
  | dir ds => exact absurd rfl (h ds)
  | file b => cases p <;> rfl
  | archiveFile es => cases p <;> rfl
  | other => cases p <;> rfl

theorem createDirAll_dir_at (a : CPath) : ∀ (fs fs1 : Entry),
    createDirAllS fs a = Except.ok fs1 → ∃ ds, getE fs1 a = some (Entry.dir ds) := by
  induction a with
  | nil =>
    intro fs fs1 h
    cases fs with
    | dir ds =>
      simp only [createDirAllS, Except.ok.injEq] at h
      exact ⟨ds, by rw [← h]; rfl⟩
    | file b => cases h
    | archiveFile es => cases h
    | other => cases h
  | cons c a2 ih =>
    intro fs fs1 h
    cases fs with
    | dir ds =>
      rw [createDirAll_dir_cons] at h
      cases hl : lookupC ds c with
      | none =>
        rw [hl] at h
        dsimp only at h
        injection h with h
        subst h
        refine ⟨Kids.nil, ?_⟩
        rw [getE_dir_cons, lookupC_setChild_self, Option.some_bind]
        exact freshDirs_get a2
      | some e =>
        rw [hl] at h
        dsimp only at h
        cases hc : createDirAllS e a2 with
        | error e2 => rw [hc] at h; cases h
        | ok e2 =>
          rw [hc] at h
          simp only [Except.map, Except.ok.injEq] at h
          subst h
          obtain ⟨ds2, hds2⟩ := ih e e2 hc
          refine ⟨ds2, ?_⟩
          rw [getE_dir_cons, lookupC_setChild_self, Option.some_bind]
          exact hds2
    | file b => rw [createDirAll_nondir _ _ (by intro ds hh; cases hh)] at h; cases h
    | archiveFile es => rw [createDirAll_nondir _ _ (by intro ds hh; cases hh)] at h; cases h
    | other => rw [createDirAll_nondir _ _ (by intro ds hh; cases hh)] at h; cases h

theorem createDirAll_frame (a : CPath) : ∀ (fs fs1 : Entry) (q : CPath),
    createDirAllS fs a = Except.ok fs1 → ¬ (a <+: q) → ¬ (q <+: a) →
    getE fs1 q = getE fs q := by
  induction a with
  | nil => intro fs fs1 q h h1 _; exact absurd List.nil_prefix h1
  | cons c a2 ih =>
    intro fs fs1 q h h1 h2
    cases q with
    | nil => exact absurd List.nil_prefix h2
    | cons d q2 =>
      cases fs with
      | dir ds =>
        rw [createDirAll_dir_cons] at h
        by_cases hdc : d = c
        · subst hdc
          have h1' : ¬ (a2 <+: q2) := fun hp => h1 (List.cons_prefix_cons.mpr ⟨rfl, hp⟩)
          have h2' : ¬ (q2 <+: a2) := fun hp => h2 (List.cons_prefix_cons.mpr ⟨rfl, hp⟩)
          cases hl : lookupC ds d with
          | none =>
            rw [hl] at h
            dsimp only at h
            injection h with h
            subst h
            rw [getE_dir_cons, getE_dir_cons, hl, lookupC_setChild_self,
              Option.some_bind]
            simp [freshDirs_frame a2 q2 h1' h2']
          | some e =>
            rw [hl] at h
            dsimp only at h
            cases hc : createDirAllS e a2 with
            | error e2 => rw [hc] at h; cases h
            | ok e2 =>
              rw [hc] at h
              simp only [Except.map, Except.ok.injEq] at h
              subst h
              rw [getE_dir_cons, getE_dir_cons, hl, lookupC_setChild_self,
                Option.some_bind, Option.some_bind]
              exact ih e e2 q2 hc h1' h2'
        · have step : getE fs1 (d :: q2) = getE (Entry.dir ds) (d :: q2) := by
            cases hl : lookupC ds c with
            | none =>
              rw [hl] at h
              dsimp only at h
              injection h with h
              subst h
              rw [getE_dir_cons, getE_dir_cons, lookupC_setChild_ne ds c d _ hdc]
            | some e =>
              rw [hl] at h
              dsimp only at h
              cases hc : createDirAllS e a2 with
              | error e2 => rw [hc] at h; cases h
              | ok e2 =>
                rw [hc] at h
                simp only [Except.map, Except.ok.injEq] at h
                subst h
                rw [getE_dir_cons, getE_dir_cons, lookupC_setChild_ne ds c d _ hdc]
          exact step
      | file b => rw [createDirAll_nondir _ _ (by intro ds hh; cases hh)] at h; cases h
      | archiveFile es =>
        rw [createDirAll_nondir _ _ (by intro ds hh; cases hh)] at h; cases h
      | other => rw [createDirAll_nondir _ _ (by intro ds hh; cases hh)] at h; cases h

theorem createDirAll_anc (a : CPath) : ∀ (fs fs1 : Entry) (q : CPath),
    createDirAllS fs a = Except.ok fs1 → (q <+: a) → q ≠ a →
    ∃ ds, getE fs1 q = some (Entry.dir ds) := by
  induction a with
  | nil => intro fs fs1 q h h1 h2; exact absurd (List.prefix_nil.mp h1) h2
  | cons c a2 ih =>
    intro fs fs1 q h h1 h2
    cases fs with
    | dir ds =>
      rw [createDirAll_dir_cons] at h
      cases q with
      | nil =>
        cases hl : lookupC ds c with
        | none =>
          rw [hl] at h
          dsimp only at h
          injection h with h
          exact ⟨setChild ds c (freshDirs a2), by rw [← h]; rfl⟩
        | some e =>
          rw [hl] at h
          dsimp only at h
          cases hc : createDirAllS e a2 with
          | error e2 => rw [hc] at h; cases h
          | ok e2 =>
            rw [hc] at h
            simp only [Except.map, Except.ok.injEq] at h
            exact ⟨setChild ds c e2, by rw [← h]; rfl⟩
      | cons d q2 =>
        obtain ⟨hdc, hq2⟩ := List.cons_prefix_cons.mp h1
        subst hdc
        have hq2ne : q2 ≠ a2 := fun hh => h2 (by rw [hh])
        cases hl : lookupC ds d with
        | none =>
          rw [hl] at h
          dsimp only at h
          injection h with h
          subst h
          obtain ⟨ds2, hds2⟩ := freshDirs_anc a2 q2 hq2 hq2ne
          refine ⟨ds2, ?_⟩
          rw [getE_dir_cons, lookupC_setChild_self, Option.some_bind]
          exact hds2
        | some e =>
          rw [hl] at h
          dsimp only at h
          cases hc : createDirAllS e a2 with
          | error e2 => rw [hc] at h; cases h
          | ok e2 =>
            rw [hc] at h
            simp only [Except.map, Except.ok.injEq] at h
            subst h
            obtain ⟨ds2, hds2⟩ := ih e e2 q2 hc hq2 hq2ne
            refine ⟨ds2, ?_⟩
            rw [getE_dir_cons, lookupC_setChild_self, Option.some_bind]
            exact hds2
    | file b => rw [createDirAll_nondir _ _ (by intro ds hh; cases hh)] at h; cases h
    | archiveFile es => rw [createDirAll_nondir _ _ (by intro ds hh; cases hh)] at h; cases h
    | other => rw [createDirAll_nondir _ _ (by intro ds hh; cases hh)] at h; cases h


/-! Suffix classification lemmas. -/

theorem isFileO_not_none (o : Option Entry) (h : isFileO o = true) : o.isNone = false := by
  cases o with
  | none => simp [isFileO] at h
  | some e => rfl

theorem isDirO_not_none (o : Option Entry) (h : isDirO o = true) : o.isNone = false := by
  cases o with
  | none => simp [isDirO] at h
  | some e => rfl

theorem isFileO_of_isDirO (o : Option Entry) (h : isDirO o = true) : isFileO o = false := by
  cases o with
  | none => simp [isDirO] at h
  | some e => cases e <;> simp_all [isDirO, isFileO]

theorem classify_of_tarzstd (s : PathStr) (h : strL ".tar.zstd" <:+ s) :
    classify s = ArtifactClass.archive := by
  have h1 : strL "tar.zstd" <:+ s := List.IsSuffix.trans (by decide) h
  simp [classify, endsWithL, h1]

theorem classify_of_tarzst (s : PathStr) (h : strL ".tar.zst" <:+ s) :
    classify s = ArtifactClass.archive := by
  have h1 : strL "tar.zst" <:+ s := List.IsSuffix.trans (by decide) h
  simp [classify, endsWithL, h1]

theorem classify_of_bak_nodot (s : PathStr) (h1 : strL "bak" <:+ s)
    (h2 : ¬ (strL "tar.zstd" <:+ s)) (h3 : ¬ (strL "tar.zst" <:+ s)) :
    classify s = ArtifactClass.plainFile := by
  simp [classify, endsWithL, h1, h2, h3]

theorem classify_of_bak (s : PathStr) (h : strL ".bak" <:+ s) :
    classify s = ArtifactClass.plainFile := by
  have hb : strL "bak" <:+ s := List.IsSuffix.trans (by decide) h
  have hlast : s.getLast? = some 'k' := by
    have h2 := suffix_getLast? s (strL "bak") hb (by decide)
    rw [h2]; decide
  have h1 : ¬ (strL "tar.zstd" <:+ s) := by
    intro hz
    have h2 := suffix_getLast? s (strL "tar.zstd") hz (by decide)
    rw [hlast] at h2
    exact absurd h2 (by decide)
  have h3 : ¬ (strL "tar.zst" <:+ s) := by
    intro hz
    have h2 := suffix_getLast? s (strL "tar.zst") hz (by decide)
    rw [hlast] at h2
    exact absurd h2 (by decide)
  exact classify_of_bak_nodot s hb h1 h3

theorem classify_of_bakd (s : PathStr) (h : strL ".bak.d" <:+ s) :
    classify s = ArtifactClass.plainDir := by
  have hbd : strL "bak.d" <:+ s := List.IsSuffix.trans (by decide) h
  have h1 : ¬ (strL "tar.zstd" <:+ s) := by
    intro hz
    rcases List.suffix_or_suffix_of_suffix hz h with hc | hc
    · exact absurd hc (by decide)
    · exact absurd hc (by decide)
  have h2 : ¬ (strL "tar.zst" <:+ s) := by
    intro hz
    rcases List.suffix_or_suffix_of_suffix hz h with hc | hc
    · exact absurd hc (by decide)
    · exact absurd hc (by decide)
  have h3 : ¬ (strL "bak" <:+ s) := by
    intro hz
    rcases List.suffix_or_suffix_of_suffix hz h with hc | hc
    · exact absurd hc (by decide)
    · exact absurd hc (by decide)
  simp [classify, endsWithL, h1, h2, h3, hbd]

/-! Lemmas about the directory mirror. -/

theorem createDirAll_id (a : CPath) : ∀ (fs : Entry) (ds : Kids),
    getE fs a = some (Entry.dir ds) → createDirAllS fs a = Except.ok fs := by
  induction a with
  | nil =>
    intro fs ds h
    have hfs : fs = Entry.dir ds := by
      have hg : getE fs [] = some fs := by cases fs <;> rfl
      rw [hg] at h
      exact Option.some.inj h
    subst hfs
    rfl
  | cons c a2 ih =>
    intro fs ds h
    cases fs with
    | dir ds0 =>
      rw [getE_dir_cons] at h
      cases hl : lookupC ds0 c with
      | none => rw [hl] at h; cases h
      | some e =>
        rw [hl, Option.some_bind] at h
        rw [createDirAll_dir_cons, hl]
        dsimp only
        rw [ih e ds h]
        simp [Except.map, setChild_lookup_eq ds0 c e hl]
    | file b => rw [getE_nondir_cons _ _ _ (by intro ds2 hh; cases hh)] at h; cases h
    | archiveFile es => rw [getE_nondir_cons _ _ _ (by intro ds2 hh; cases hh)] at h; cases h
    | other => rw [getE_nondir_cons _ _ _ (by intro ds2 hh; cases hh)] at h; cases h

theorem forceSet_id (a : CPath) : ∀ (fs v : Entry),
    getE fs a = some v → forceSet fs a v = fs := by
  induction a with
  | nil =>
    intro fs v h
    have hg : getE fs [] = some fs := by cases fs <;> rfl
    rw [hg] at h
    rw [forceSet, Option.some.inj h]
  | cons c a2 ih =>
    intro fs v h
    cases fs with
    | dir ds =>
      rw [getE_dir_cons] at h
      cases hl : lookupC ds c with
      | none => rw [hl] at h; cases h
      | some e =>
        rw [hl, Option.some_bind] at h
        rw [forceSet_dir_cons_some ds c a2 v e hl, ih e v h,
          setChild_lookup_eq ds c e hl]
    | file b => rw [getE_nondir_cons _ _ _ (by intro ds2 hh; cases hh)] at h; cases h
    | archiveFile es => rw [getE_nondir_cons _ _ _ (by intro ds2 hh; cases hh)] at h; cases h
    | other => rw [getE_nondir_cons _ _ _ (by intro ds2 hh; cases hh)] at h; cases h

theorem mirrorKids_frame (l ds : Kids) : ∀ (out : Kids) (er : Option ErrKind) (n : Comp),
    mirrorKids l ds = (out, er) → n ∉ kidNames l → lookupC out n = lookupC ds n := by
  induction l, ds using mirrorKids.induct with
  | case1 ds =>
    intro out er n h _
    simp only [mirrorKids, Prod.mk.injEq] at h
    rw [← h.1]
  | case2 n2 sub rest ds ds2 hl ds3 hsub ihsub ihrest =>
    intro out er n h hn
    simp only [kidNames, List.mem_cons, not_or] at hn
    simp only [mirrorKids, hl, hsub] at h
    rw [ihrest out er n h hn.2]
    exact lookupC_setChild_ne ds n2 n _ hn.1
  | case3 n2 sub rest ds ds2 hl ds3 e hsub ihsub =>
    intro out er n h hn
    simp only [kidNames, List.mem_cons, not_or] at hn
    simp only [mirrorKids, hl, hsub, Prod.mk.injEq] at h
    rw [← h.1]
    exact lookupC_setChild_ne ds n2 n _ hn.1
  | case4 n2 sub rest ds hl ds3 hsub ihsub ihrest =>
    intro out er n h hn
    simp only [kidNames, List.mem_cons, not_or] at hn
    simp only [mirrorKids, hl, hsub] at h
    rw [ihrest out er n h hn.2]
    exact lookupC_setChild_ne ds n2 n _ hn.1
  | case5 n2 sub rest ds hl ds3 e hsub ihsub =>
    intro out er n h hn
    simp only [kidNames, List.mem_cons, not_or] at hn
    simp only [mirrorKids, hl, hsub, Prod.mk.injEq] at h
    rw [← h.1]
    exact lookupC_setChild_ne ds n2 n _ hn.1
  | case6 n2 sub rest ds val hval hl =>
    intro out er n h hn
    cases val with
    | dir ds2 => exact absurd rfl (hval ds2)
    | file b =>
      simp only [mirrorKids, hl, Prod.mk.injEq] at h
      rw [← h.1]
    | archiveFile es =>
      simp only [mirrorKids, hl, Prod.mk.injEq] at h
      rw [← h.1]
    | other =>
      simp only [mirrorKids, hl, Prod.mk.injEq] at h
      rw [← h.1]
  | case7 n2 c rest ds a hl =>
    intro out er n h hn
    simp only [mirrorKids, hl, Prod.mk.injEq] at h
    rw [← h.1]
  | case8 n2 c rest ds hval ihrest =>
    intro out er n h hn
    simp only [kidNames, List.mem_cons, not_or] at hn
    have hred : mirrorKids (Kids.cons n2 (Entry.file c) rest) ds =
        mirrorKids rest (setChild ds n2 (Entry.file c)) := by
      cases hl : lookupC ds n2 with
      | none => simp only [mirrorKids, hl]
      | some e =>
        cases e with
        | dir a => exact absurd hl (by intro hh; exact hval a hh)
        | file b => simp only [mirrorKids, hl]
        | archiveFile es => simp only [mirrorKids, hl]
        | other => simp only [mirrorKids, hl]
    rw [hred] at h
    rw [ihrest out er n h hn.2]
    exact lookupC_setChild_ne ds n2 n _ hn.1
  | case9 n2 a rest ds a2 hl =>
    intro out er n h hn
    simp only [mirrorKids, hl, Prod.mk.injEq] at h
    rw [← h.1]
  | case10 n2 a rest ds hval ihrest =>
    intro out er n h hn
    simp only [kidNames, List.mem_cons, not_or] at hn
    have hred : mirrorKids (Kids.cons n2 (Entry.archiveFile a) rest) ds =
        mirrorKids rest (setChild ds n2 (Entry.archiveFile a)) := by
      cases hl : lookupC ds n2 with
      | none => simp only [mirrorKids, hl]
      | some e =>
        cases e with
        | dir a3 => exact absurd hl (by intro hh; exact hval a3 hh)
        | file b => simp only [mirrorKids, hl]
        | archiveFile es => simp only [mirrorKids, hl]
        | other => simp only [mirrorKids, hl]
    rw [hred] at h
    rw [ihrest out er n h hn.2]
    exact lookupC_setChild_ne ds n2 n _ hn.1
  | case11 n2 rest ds ihrest =>
    intro out er n h hn
    simp only [kidNames, List.mem_cons, not_or] at hn
    simp only [mirrorKids] at h
    exact ihrest out er n h hn.2

theorem mirrorKids_idem (l ds : Kids) :
    kidsWF l = true → (kidNames l).Nodup →
    ∀ fd, mirrorKids l ds = (fd, none) → mirrorKids l fd = (fd, none) := by
  induction l, ds using mirrorKids.induct with
  | case1 ds =>
    intro _ _ fd h
    simp only [mirrorKids, Prod.mk.injEq] at h
    rw [← h.1]
    rfl
  | case2 n2 sub rest ds ds2 hl ds3 hsub ihsub ihrest =>
    intro hwf hnd fd h
    simp only [kidsWF, Bool.and_eq_true] at hwf
    obtain ⟨hwfsub, hwfrest⟩ := hwf
    simp only [entryWF, Bool.and_eq_true, decide_eq_true_eq] at hwfsub
    obtain ⟨hndsub, hkidssub⟩ := hwfsub
    simp only [kidNames, List.nodup_cons] at hnd
    obtain ⟨hnotin, hndrest⟩ := hnd
    simp only [mirrorKids, hl, hsub] at h
    have hfdn : lookupC fd n2 = some (Entry.dir ds3) := by
      rw [mirrorKids_frame rest (setChild ds n2 (Entry.dir ds3)) fd none n2 h hnotin]
      exact lookupC_setChild_self ds n2 (Entry.dir ds3)
    have hsub2 : mirrorKids sub ds3 = (ds3, none) := ihsub hkidssub hndsub ds3 hsub
    simp only [mirrorKids, hfdn, hsub2]
    rw [setChild_lookup_eq fd n2 (Entry.dir ds3) hfdn]
    exact ihrest hwfrest hndrest fd h
  | case3 n2 sub rest ds ds2 hl ds3 e hsub ihsub =>
    intro _ _ fd h
    simp only [mirrorKids, hl, hsub, Prod.mk.injEq] at h
    cases h.2
  | case4 n2 sub rest ds hl ds3 hsub ihsub ihrest =>
    intro hwf hnd fd h
    simp only [kidsWF, Bool.and_eq_true] at hwf
    obtain ⟨hwfsub, hwfrest⟩ := hwf
    simp only [entryWF, Bool.and_eq_true, decide_eq_true_eq] at hwfsub
    obtain ⟨hndsub, hkidssub⟩ := hwfsub
    simp only [kidNames, List.nodup_cons] at hnd
    obtain ⟨hnotin, hndrest⟩ := hnd
    simp only [mirrorKids, hl, hsub] at h
    have hfdn : lookupC fd n2 = some (Entry.dir ds3) := by
      rw [mirrorKids_frame rest (setChild ds n2 (Entry.dir ds3)) fd none n2 h hnotin]
      exact lookupC_setChild_self ds n2 (Entry.dir ds3)
    have hsub2 : mirrorKids sub ds3 = (ds3, none) := ihsub hkidssub hndsub ds3 hsub
    simp only [mirrorKids, hfdn, hsub2]
    rw [setChild_lookup_eq fd n2 (Entry.dir ds3) hfdn]
    exact ihrest hwfrest hndrest fd h
  | case5 n2 sub rest ds hl ds3 e hsub ihsub =>
    intro _ _ fd h
    simp only [mirrorKids, hl, hsub, Prod.mk.injEq] at h
    cases h.2
  | case6 n2 sub rest ds val hval hl =>
    intro _ _ fd h
    cases val with
    | dir ds2 => exact absurd rfl (hval ds2)
    | file b => simp only [mirrorKids, hl, Prod.mk.injEq] at h; cases h.2
    | archiveFile es => simp only [mirrorKids, hl, Prod.mk.injEq] at h; cases h.2
    | other => simp only [mirrorKids, hl, Prod.mk.injEq] at h; cases h.2
  | case7 n2 c rest ds a hl =>
    intro _ _ fd h
    simp only [mirrorKids, hl, Prod.mk.injEq] at h
    cases h.2
  | case8 n2 c rest ds hval ihrest =>
    intro hwf hnd fd h
    simp only [kidsWF, Bool.and_eq_true] at hwf
    simp only [kidNames, List.nodup_cons] at hnd
    obtain ⟨hnotin, hndrest⟩ := hnd
    have hred : mirrorKids (Kids.cons n2 (Entry.file c) rest) ds =
        mirrorKids rest (setChild ds n2 (Entry.file c)) := by
      cases hl2 : lookupC ds n2 with
      | none => simp only [mirrorKids, hl2]
      | some e =>
        cases e with
        | dir a => exact absurd hl2 (by intro hh; exact hval a hh)
        | file b => simp only [mirrorKids, hl2]
        | archiveFile es => simp only [mirrorKids, hl2]
        | other => simp only [mirrorKids, hl2]
    rw [hred] at h
    have hfdn : lookupC fd n2 = some (Entry.file c) := by
      rw [mirrorKids_frame rest (setChild ds n2 (Entry.file c)) fd none n2 h hnotin]
      exact lookupC_setChild_self ds n2 (Entry.file c)
    simp only [mirrorKids, hfdn]
    rw [setChild_lookup_eq fd n2 (Entry.file c) hfdn]
    exact ihrest hwf.2 hndrest fd h
  | case9 n2 a rest ds a2 hl =>
    intro _ _ fd h
    simp only [mirrorKids, hl, Prod.mk.injEq] at h
    cases h.2
  | case10 n2 a rest ds hval ihrest =>
    intro hwf hnd fd h
    simp only [kidsWF, Bool.and_eq_true] at hwf
    simp only [kidNames, List.nodup_cons] at hnd
    obtain ⟨hnotin, hndrest⟩ := hnd
    have hred : mirrorKids (Kids.cons n2 (Entry.archiveFile a) rest) ds =
        mirrorKids rest (setChild ds n2 (Entry.archiveFile a)) := by
      cases hl2 : lookupC ds n2 with
      | none => simp only [mirrorKids, hl2]
      | some e =>
        cases e with
        | dir a3 => exact absurd hl2 (by intro hh; exact hval a3 hh)
        | file b => simp only [mirrorKids, hl2]
        | archiveFile es => simp only [mirrorKids, hl2]
        | other => simp only [mirrorKids, hl2]
    rw [hred] at h
    have hfdn : lookupC fd n2 = some (Entry.archiveFile a) := by
      rw [mirrorKids_frame rest (setChild ds n2 (Entry.archiveFile a)) fd none n2 h hnotin]
      exact lookupC_setChild_self ds n2 (Entry.archiveFile a)
    simp only [mirrorKids, hfdn]
    rw [setChild_lookup_eq fd n2 (Entry.archiveFile a) hfdn]
    exact ihrest hwf.2 hndrest fd h
  | case11 n2 rest ds ihrest =>
    intro hwf hnd fd h
    simp only [kidsWF, Bool.and_eq_true] at hwf
    simp only [kidNames, List.nodup_cons] at hnd
    simp only [mirrorKids] at h
    simp only [mirrorKids]
    exact ihrest hwf.2 hnd.2 fd h

/-! Confinement of the restore writes, used for the deletion-gating claim. -/

theorem isDirO_some (o : Option Entry) (h : isDirO o = true) :
    ∃ ds, o = some (Entry.dir ds) := by
  cases o with
  | none => simp [isDirO] at h
  | some e =>
    cases e with
    | dir ds => exact ⟨ds, rfl⟩
    | file b => simp [isDirO] at h
    | archiveFile es => simp [isDirO] at h
    | other => simp [isDirO] at h

theorem prefix_snoc_ne (q xs : CPath) (x : Comp) (h : q <+: xs ++ [x])
    (hne : q ≠ xs ++ [x]) : q <+: xs := by
  rcases List.prefix_concat_iff.mp h with h1 | h1
  · exact absurd h1 hne
  · exact h1

theorem preservedOutside_refl (fs : Entry) (tgt : CPath) :
    preservedOutside fs fs tgt := by
  intro q e _ hq
  exact ⟨e, hq, Or.inl rfl⟩

theorem preservedOutside_trans (fs fs2 fs3 : Entry) (tgt : CPath)
    (h1 : preservedOutside fs fs2 tgt) (h2 : preservedOutside fs2 fs3 tgt) :
    preservedOutside fs fs3 tgt := by
  intro q e hq he
  obtain ⟨e2, he2, hk2⟩ := h1 q e hq he
  obtain ⟨e3, he3, hk3⟩ := h2 q e2 hq he2
  refine ⟨e3, he3, ?_⟩
  rcases hk2 with hk2 | ⟨⟨ds, hds⟩, ⟨ds2, hds2⟩⟩
  · rw [hk2] at hk3
    exact hk3
  · rcases hk3 with hk3 | ⟨_, hd3⟩
    · exact Or.inr ⟨⟨ds, hds⟩, by rw [hk3]; exact ⟨ds2, hds2⟩⟩
    · exact Or.inr ⟨⟨ds, hds⟩, hd3⟩

theorem preservedOutside_mono (fs fs2 : Entry) (tgt tgt2 : CPath)
    (hpre : tgt <+: tgt2) (h : preservedOutside fs fs2 tgt2) :
    preservedOutside fs fs2 tgt := by
  intro q e hq he
  exact h q e (fun hh => hq (hpre.trans hh)) he

theorem setAtD_preservedOutside (fs fs2 v : Entry) (tgt : CPath)
    (hset : setAtD fs tgt v = some fs2) : preservedOutside fs fs2 tgt := by
  intro q e hq he
  by_cases hqt : q <+: tgt
  · have hqne : q ≠ tgt := fun hh => hq (hh ▸ List.prefix_refl q)
    obtain ⟨⟨ds, hds⟩, ⟨ds2, hds2⟩⟩ := getE_setAtD_anc tgt fs v fs2 q hset hqt hqne
    refine ⟨Entry.dir ds2, hds2, Or.inr ⟨⟨ds, ?_⟩, ⟨ds2, rfl⟩⟩⟩
    rw [he] at hds
    exact Option.some.inj hds
  · rw [getE_setAtD_frame tgt fs v fs2 q hset hq hqt]
    exact ⟨e, he, Or.inl rfl⟩

theorem forceSet_preservedOutside_ext (fs v : Entry) (outC ext : CPath)
    (hanc : ∀ q, q <+: outC → q ≠ outC → ∃ ds, getE fs q = some (Entry.dir ds)) :
    preservedOutside fs (forceSet fs (outC ++ ext) v) outC := by
  intro q e hq he
  have hqout : q ≠ outC := fun hh => hq (hh ▸ List.prefix_rfl)
  by_cases hqt : q <+: outC ++ ext
  · have hqo : q <+: outC := by
      rcases List.prefix_or_prefix_of_prefix hqt (List.prefix_append outC ext) with h | h
      · exact h
      · exact absurd h hq
    have hqtne : q ≠ outC ++ ext := by
      intro hh
      exact hq (hh ▸ List.prefix_append outC ext)
    obtain ⟨ds, hds⟩ := hanc q hqo hqout
    obtain ⟨ds2, hds2⟩ := getE_forceSet_anc (outC ++ ext) fs v q hqt hqtne
    refine ⟨Entry.dir ds2, hds2, Or.inr ⟨⟨ds, ?_⟩, ⟨ds2, rfl⟩⟩⟩
    rw [he] at hds
    exact Option.some.inj hds
  · have hnt : ¬ (outC ++ ext <+: q) := by
      intro hh
      exact hq ((List.prefix_append outC ext).trans hh)
    rw [getE_forceSet_frame (outC ++ ext) fs v q hnt hqt]
    exact ⟨e, he, Or.inl rfl⟩

theorem createDirAll_anc_orig (a : CPath) : ∀ (fs fs1 : Entry) (q : CPath) (e : Entry),
    createDirAllS fs a = Except.ok fs1 → q <+: a → q ≠ a → getE fs q = some e →
    ∃ ds, e = Entry.dir ds := by
  induction a with
  | nil =>
    intro fs fs1 q e _ h1 h2 _
    exact absurd (List.prefix_nil.mp h1) h2
  | cons c a2 ih =>
    intro fs fs1 q e h h1 h2 he
    cases fs with
    | dir ds =>
      cases q with
      | nil =>
        have hg : getE (Entry.dir ds) [] = some (Entry.dir ds) := rfl
        rw [hg] at he
        exact ⟨ds, (Option.some.inj he).symm⟩
      | cons d q2 =>
        obtain ⟨hdc, hq2⟩ := List.cons_prefix_cons.mp h1
        subst hdc
        have hq2ne : q2 ≠ a2 := fun hh => h2 (by rw [hh])
        rw [getE_dir_cons] at he
        cases hl : lookupC ds d with
        | none => rw [hl] at he; cases he
        | some e1 =>
          rw [hl, Option.some_bind] at he
          rw [createDirAll_dir_cons, hl] at h
          dsimp only at h
          cases hc : createDirAllS e1 a2 with
          | error e3 => rw [hc] at h; cases h
          | ok e2 => exact ih e1 e2 q2 e hc hq2 hq2ne he
    | file b => rw [createDirAll_nondir _ _ (by intro ds hh; cases hh)] at h; cases h
    | archiveFile es => rw [createDirAll_nondir _ _ (by intro ds hh; cases hh)] at h; cases h
    | other => rw [createDirAll_nondir _ _ (by intro ds hh; cases hh)] at h; cases h

theorem createDirAll_preservedOutside (fs fs2 : Entry) (tgt : CPath)
    (hcre : createDirAllS fs tgt = Except.ok fs2) : preservedOutside fs fs2 tgt := by
  intro q e hq he
  by_cases hqt : q <+: tgt
  · have hqne : q ≠ tgt := fun hh => hq (hh ▸ List.prefix_rfl)
    obtain ⟨ds2, hds2⟩ := createDirAll_anc tgt fs fs2 q hcre hqt hqne
    obtain ⟨ds, hds⟩ := createDirAll_anc_orig tgt fs fs2 q e hcre hqt hqne he
    exact ⟨Entry.dir ds2, hds2, Or.inr ⟨⟨ds, hds⟩, ⟨ds2, rfl⟩⟩⟩
  · rw [createDirAll_frame tgt fs fs2 q hcre hq hqt]
    exact ⟨e, he, Or.inl rfl⟩

theorem unpack_preservedOutside (outC : CPath) (es : Kids) : ∀ (fs : Entry),
    (∀ q, q <+: outC → q ≠ outC → ∃ ds, getE fs q = some (Entry.dir ds)) →
    preservedOutside fs (unpack fs outC es) outC := by
  induction es using kidsInd with
  | h0 =>
    intro fs _
    exact preservedOutside_refl fs outC
  | h1 n e rest ih =>
    intro fs hanc
    have hstep : preservedOutside fs (forceSet fs (outC ++ parsePath n) e) outC :=
      forceSet_preservedOutside_ext fs e outC (parsePath n) hanc
    have hanc2 : ∀ q, q <+: outC → q ≠ outC →
        ∃ ds, getE (forceSet fs (outC ++ parsePath n) e) q = some (Entry.dir ds) := by
      intro q hqo hqne
      refine getE_forceSet_anc (outC ++ parsePath n) fs e q
        (hqo.trans (List.prefix_append outC _)) ?_
      intro hh
      have hl := hqo.length_le
      rw [hh, List.length_append] at hl
      have hext : (parsePath n).length = 0 := by omega
      rw [List.length_eq_zero.mp hext, List.append_nil] at hh
      exact hqne hh
    exact preservedOutside_trans _ _ _ _ hstep
      (ih (forceSet fs (outC ++ parsePath n) e) hanc2)

theorem copyDirAllS_preservedOutside (fs : Entry) (src dst : CPath) :
    preservedOutside fs (copyDirAllS fs src dst).2 dst := by
  unfold copyDirAllS
  cases hcd : createDirAllS fs dst with
  | error e =>
    dsimp only
    exact preservedOutside_refl fs dst
  | ok fsa =>
    dsimp only
    have hpre1 := createDirAll_preservedOutside fs fsa dst hcd
    have hanc : ∀ q, q <+: dst → q ≠ dst → ∃ ds, getE fsa q = some (Entry.dir ds) :=
      fun q hq hqne => createDirAll_anc dst fs fsa q hcd hq hqne
    have hfin : ∀ ds2 : Kids,
        preservedOutside fsa (forceSet fsa dst (Entry.dir ds2)) dst := by
      intro ds2
      have h2 := forceSet_preservedOutside_ext fsa (Entry.dir ds2) dst [] hanc
      rw [List.append_nil] at h2
      exact h2
    cases hs : getE fsa src with
    | none => exact hpre1
    | some e =>
      cases e with
      | dir srcKids =>
        dsimp only
        cases hd : getE fsa dst with
        | none => exact hpre1
        | some e2 =>
          cases e2 with
          | dir ds0 =>
            dsimp only
            cases hm : mirrorKids srcKids ds0 with
            | mk ds2 er =>
              cases er with
              | none =>
                dsimp only
                exact preservedOutside_trans _ _ _ _ hpre1 (hfin ds2)
              | some e3 =>
                dsimp only
                exact preservedOutside_trans _ _ _ _ hpre1 (hfin ds2)
          | file b => exact hpre1
          | archiveFile a => exact hpre1
          | other => exact hpre1
      | file b => exact hpre1
      | archiveFile a => exact hpre1
      | other => exact hpre1

theorem restore_preservedOutside (fs : Entry) (p outDir : PathStr) :
    preservedOutside fs (restore fs p outDir).2 (parsePath outDir) := by
  unfold restore
  dsimp only
  split
  · exact preservedOutside_refl _ _
  · split
    · exact preservedOutside_refl _ _
    · split
      · exact preservedOutside_refl _ _
      · next h1 h2 h3 =>
        have hdir : isDirO (getE fs (parsePath outDir)) = true := by
          cases hio : isDirO (getE fs (parsePath outDir)) with
          | true => rfl
          | false => exact absurd (by rw [hio]; rfl) h3
        obtain ⟨dso, hdso⟩ := isDirO_some _ hdir
        have hanc : ∀ q, q <+: parsePath outDir → q ≠ parsePath outDir →
            ∃ ds, getE fs q = some (Entry.dir ds) :=
          fun q hq hqne => getE_some_anc _ fs _ q hdso hq hqne
        split
        · -- Archive
          split
          · exact preservedOutside_refl _ _
          · split
            · next es heq =>
              exact unpack_preservedOutside (parsePath outDir) es fs hanc
            · exact preservedOutside_refl _ _
        · -- PlainFile
          split
          · exact preservedOutside_refl _ _
          · split
            · split
              · exact preservedOutside_refl _ _
              · next name hfn =>
                split
                · next fs2 hcp =>
                  unfold fsCopy at hcp
                  split at hcp
                  · split at hcp
                    · cases hcp
                    · split at hcp
                      · next fs3 hset =>
                        injection hcp with hcp
                        subst hcp
                        exact preservedOutside_mono _ _ _ _
                          (List.prefix_append _ _) (setAtD_preservedOutside _ _ _ _ hset)
                      · cases hcp
                  · split at hcp
                    · cases hcp
                    · split at hcp
                      · next fs3 hset =>
                        injection hcp with hcp
                        subst hcp
                        exact preservedOutside_mono _ _ _ _
                          (List.prefix_append _ _) (setAtD_preservedOutside _ _ _ _ hset)
                      · cases hcp
                  · cases hcp
                  · cases hcp
                · exact preservedOutside_refl _ _
            · exact preservedOutside_refl _ _
            · exact preservedOutside_refl _ _
        · -- PlainDir
          split
          · exact preservedOutside_refl _ _
          · split
            · split
              · exact preservedOutside_refl _ _
              · next name hfn =>
                exact preservedOutside_mono _ _ _ _ (List.prefix_append _ _)
                  (copyDirAllS_preservedOutside fs _ _)
            · exact preservedOutside_refl _ _
            · exact preservedOutside_refl _ _
        · -- unknown
          exact preservedOutside_refl _ _

theorem recursiveRemoveS_removes (fs : Entry) (pC : CPath) (e : Entry)
    (hg : getE fs pC = some e) (hrem : removableE e = true) (hne : pC ≠ []) :
    getE (recursiveRemoveS fs pC).2 pC = none := by
  unfold recursiveRemoveS
  rw [hg]
  cases e with
  | dir ds => exact getE_removeAt_self pC fs hne
  | file b => exact getE_removeAt_self pC fs hne
  | archiveFile es => exact getE_removeAt_self pC fs hne
  | other => simp [removableE] at hrem

theorem restore_ok_removable (fs fs2 : Entry) (p outDir : PathStr)
    (hal : ¬ (parsePath outDir <+: parsePath p))
    (hres : restore fs p outDir = (RResult.ok (), fs2)) :
    ∃ e2, getE fs2 (parsePath p) = some e2 ∧ removableE e2 = true := by
  unfold restore at hres
  dsimp only at hres
  split at hres
  · simp at hres
  · split at hres
    · simp at hres
    · split at hres
      · simp at hres
      · next h1 h2 h3 =>
        split at hres
        · -- Archive
          split at hres
          · simp at hres
          · split at hres
            · next es heq =>
              obtain ⟨hr1, hr2⟩ := Prod.mk.injEq .. |>.mp hres
              subst hr2
              have hdir : isDirO (getE fs (parsePath outDir)) = true := by
                cases hio : isDirO (getE fs (parsePath outDir)) with
                | true => rfl
                | false => exact absurd (by rw [hio]; rfl) h3
              obtain ⟨dso, hdso⟩ := isDirO_some _ hdir
              have hanc : ∀ q, q <+: parsePath outDir → q ≠ parsePath outDir →
                  ∃ ds, getE fs q = some (Entry.dir ds) :=
                fun q hq hqne => getE_some_anc _ fs _ q hdso hq hqne
              have hpre := unpack_preservedOutside (parsePath outDir) es fs hanc
              obtain ⟨e2, he2, hk⟩ := hpre (parsePath p) (Entry.archiveFile es) hal heq
              refine ⟨e2, he2, ?_⟩
              rcases hk with hk | ⟨⟨ds, hds⟩, _⟩
              · rw [hk]; rfl
              · cases hds
            · simp at hres
        · -- PlainFile
          split at hres
          · simp at hres
          · split at hres
            · split at hres
              · simp at hres
              · next name hfn =>
                split at hres
                · next fs3 hcp =>
                  obtain ⟨hr1, hr2⟩ := Prod.mk.injEq .. |>.mp hres
                  subst hr2
                  have hnp : ¬ (parsePath outDir ++ [name] <+: parsePath p) :=
                    fun hh => hal ((List.prefix_append _ _).trans hh)
                  unfold fsCopy at hcp
                  split at hcp
                  · next c hgp =>
                    split at hcp
                    · cases hcp
                    · split at hcp
                      · next fs4 hset =>
                        injection hcp with hcp
                        subst hcp
                        obtain ⟨e2, he2, hk⟩ :=
                          setAtD_preservedOutside fs fs4 _ _ hset (parsePath p)
                            (Entry.file c) hnp hgp
                        refine ⟨e2, he2, ?_⟩
                        rcases hk with hk | ⟨⟨ds, hds⟩, _⟩
                        · rw [hk]; rfl
                        · cases hds
                      · cases hcp
                  · next a hgp =>
                    split at hcp
                    · cases hcp
                    · split at hcp
                      · next fs4 hset =>
                        injection hcp with hcp
                        subst hcp
                        obtain ⟨e2, he2, hk⟩ :=
                          setAtD_preservedOutside fs fs4 _ _ hset (parsePath p)
                            (Entry.archiveFile a) hnp hgp
                        refine ⟨e2, he2, ?_⟩
                        rcases hk with hk | ⟨⟨ds, hds⟩, _⟩
                        · rw [hk]; rfl
                        · cases hds
                      · cases hcp
                  · cases hcp
                  · cases hcp
                · simp at hres
            · simp at hres
            · simp at hres
        · -- PlainDir
          split at hres
          · simp at hres
          · split at hres
            · split at hres
              · simp at hres
              · next name hfn =>
                have hnp : ¬ (parsePath outDir ++ [name] <+: parsePath p) :=
                  fun hh => hal ((List.prefix_append _ _).trans hh)
                unfold copyDirAllS at hres
                split at hres
                · simp at hres
                · next fsa hcre =>
                  split at hres
                  · next srcKids hgp =>
                    split at hres
                    · next ds0 hgd =>
                      split at hres
                      · next ds2 hmir =>
                        obtain ⟨hr1, hr2⟩ := Prod.mk.injEq .. |>.mp hres
                        subst hr2
                        have hanc : ∀ q, q <+: parsePath outDir ++ [name] →
                            q ≠ parsePath outDir ++ [name] →
                            ∃ ds, getE fsa q = some (Entry.dir ds) :=
                          fun q hq hqne => createDirAll_anc _ fs fsa q hcre hq hqne
                        have hpre := forceSet_preservedOutside_ext fsa (Entry.dir ds2)
                          (parsePath outDir ++ [name]) [] hanc
                        rw [List.append_nil] at hpre
                        obtain ⟨e2, he2, hk⟩ := hpre (parsePath p) (Entry.dir srcKids) hnp hgp
                        refine ⟨e2, he2, ?_⟩
                        rcases hk with hk | ⟨_, ⟨ds3, hds3⟩⟩
                        · rw [hk]; rfl
                        · rw [hds3]; rfl
                      · next ds2 er hmir => simp at hres
                    · simp at hres
                  · simp at hres
                  · simp at hres
            · simp at hres
            · simp at hres
        · simp at hres

/-! Claim theorems. -/

/-- C1, counterexample: for the name `foo`, which ends in none of the four
suffixes, the restore dispatcher panics (message `unknown file`) instead
of failing with an `UnrecognizedFormat` error value; and the name `xbak`,
which also ends in none of the four dotted suffixes, is classified as a
plain `.bak` file rather than rejected, because the dispatcher matches
the dot-less suffix `bak`. -/
theorem claim_c1_cex :
    (restore fsA (strL "foo") (strL "out")).1 = RResult.panicked "unknown file" ∧
    classify (strL "xbak") = ArtifactClass.plainFile := by
  constructor
  · rfl
  · rfl

/-- C1 (amended): the restore dispatcher assigns exactly one class to
every path name by testing, in order, the dot-less suffixes `tar.zstd` /
`tar.zst` (Archive), `bak` (PlainFile), and `bak.d` (PlainDir); names
with the dotted suffixes land in the stated classes, and a name matching
none of the dot-less suffixes makes `restore` panic (`unknown file`)
rather than return an `UnrecognizedFormat` error. -/
theorem claim_c1 (s outDir : PathStr) (fs : Entry) :
    (strL ".tar.zstd" <:+ s ∨ strL ".tar.zst" <:+ s → classify s = ArtifactClass.archive) ∧
    (strL ".bak" <:+ s → classify s = ArtifactClass.plainFile) ∧
    (strL ".bak.d" <:+ s → classify s = ArtifactClass.plainDir) ∧
    (classify s = ArtifactClass.unknown →
      (getE fs (parsePath s)).isNone = false →
      isDirO (getE fs (parsePath outDir)) = true →
      restore fs s outDir = (RResult.panicked "unknown file", fs)) := by
  refine ⟨?_, classify_of_bak s, classify_of_bakd s, ?_⟩
  · rintro (h | h)
    · exact classify_of_tarzstd s h
    · exact classify_of_tarzst s h
  · intro hcl hex hout
    unfold restore
    dsimp only
    rw [hex, isDirO_not_none _ hout]
    simp only [Bool.false_eq_true, if_false, hout, Bool.not_true, hcl]

/-- C1 witness: the amended classification applied at concrete names of
each class, and the concrete panic on an unclassifiable existing name. -/
theorem claim_c1_witness :
    classify (strL "a.tar.zstd") = ArtifactClass.archive ∧
    classify (strL "a.bak") = ArtifactClass.plainFile ∧
    classify (strL "a.bak.d") = ArtifactClass.plainDir ∧
    restore fsA (strL "foo") (strL "out") = (RResult.panicked "unknown file", fsA) :=
  ⟨(claim_c1 (strL "a.tar.zstd") (strL "out") fsA).1 (Or.inl (by decide)),
   (claim_c1 (strL "a.bak") (strL "out") fsA).2.1 (by decide),
   (claim_c1 (strL "a.bak.d") (strL "out") fsA).2.2.1 (by decide),
   (claim_c1 (strL "foo") (strL "out") fsA).2.2.2 (by decide) (by rfl) (by rfl)⟩

/-- C3, counterexample: restoring the directory named `x.bak` panics with
`bak name but not a file` instead of returning an `InvalidArtifact`
error, and restoring the plain file named `y.bak.d` panics with
`bak.d name but not a directory`. -/
theorem claim_c3_cex :
    restore fsB (strL "x.bak") (strL "out") =
      (RResult.panicked "bak name but not a file", fsB) ∧
    restore fsB (strL "y.bak.d") (strL "out") =
      (RResult.panicked "bak.d name but not a directory", fsB) := by
  constructor
  · rfl
  · rfl

/-- C3 (amended): a `.bak`-named artifact whose on-disk entry is a
directory makes `restore` panic with `bak name but not a file` (not an
`InvalidArtifact` error), and a `.bak.d`-named artifact that is a plain
file makes it panic with `bak.d name but not a directory`; the
filesystem is left unchanged. -/
theorem claim_c3 (fs : Entry) (p q outDir : PathStr)
    (hp : strL ".bak" <:+ p) (hpd : isDirO (getE fs (parsePath p)) = true)
    (hq : strL ".bak.d" <:+ q) (hqf : isFileO (getE fs (parsePath q)) = true)
    (ho : isDirO (getE fs (parsePath outDir)) = true) :
    restore fs p outDir = (RResult.panicked "bak name but not a file", fs) ∧
    restore fs q outDir = (RResult.panicked "bak.d name but not a directory", fs) := by
  constructor
  · unfold restore
    dsimp only
    rw [isDirO_not_none _ hpd, isDirO_not_none _ ho]
    simp only [Bool.false_eq_true, if_false, ho, Bool.not_true, classify_of_bak p hp,
      isFileO_of_isDirO _ hpd, Bool.not_false, if_true]
  · unfold restore
    dsimp only
    rw [isFileO_not_none _ hqf, isDirO_not_none _ ho]
    simp only [Bool.false_eq_true, if_false, ho, Bool.not_true, classify_of_bakd q hq,
      hqf, if_true]

/-- C3 witness: the amended panics at the concrete misclassified
artifacts of `fsB`. -/
theorem claim_c3_witness :
    restore fsB (strL "x.bak") (strL "out") =
      (RResult.panicked "bak name but not a file", fsB) ∧
    restore fsB (strL "y.bak.d") (strL "out") =
      (RResult.panicked "bak.d name but not a directory", fsB) :=
  claim_c3 fsB (strL "x.bak") (strL "y.bak.d") (strL "out")
    (by decide) (by rfl) (by decide) (by rfl) (by rfl)

/-- C4: when the artifact is missing, or the output path is missing, or
the output path exists but is not a directory, `restore` returns a
`NotFound` error and the filesystem state is unchanged (so the failure
happens before any write). -/
theorem claim_c4 (fs : Entry) (p outDir : PathStr)
    (h : getE fs (parsePath p) = none ∨ getE fs (parsePath outDir) = none ∨
      ((getE fs (parsePath outDir)).isSome = true ∧
        isDirO (getE fs (parsePath outDir)) = false)) :
    restore fs p outDir = (RResult.err ErrKind.notFound, fs) := by
  unfold restore
  rcases h with h1 | h2 | ⟨h3, h4⟩
  · simp [h1]
  · by_cases h1 : getE fs (parsePath p) = none
    · simp [h1]
    · simp [h1, h2]
  · by_cases h1 : getE fs (parsePath p) = none
    · simp [h1]
    · have h2 : (getE fs (parsePath outDir)).isNone = false := by
        cases hg : getE fs (parsePath outDir) with
        | none => rw [hg] at h3; cases h3
        | some e => rfl
      simp [h1, h2, h4]

/-- C4 witness: restoring a missing artifact, restoring into a missing
output directory, and restoring into an output path that is a file all
fail with `NotFound` and leave the filesystem untouched. -/
theorem claim_c4_witness :
    restore fsA (strL "nope") (strL "out") = (RResult.err ErrKind.notFound, fsA) ∧
    restore fsA (strL "foo") (strL "nodir") = (RResult.err ErrKind.notFound, fsA) ∧
    restore fsA (strL "foo") (strL "xbak") = (RResult.err ErrKind.notFound, fsA) :=
  ⟨claim_c4 fsA (strL "nope") (strL "out") (Or.inl (by rfl)),
   claim_c4 fsA (strL "foo") (strL "nodir") (Or.inr (Or.inl (by rfl))),
   claim_c4 fsA (strL "foo") (strL "xbak") (Or.inr (Or.inr ⟨by rfl, by rfl⟩))⟩

/-- C5, counterexample: deriving an artifact path from the root path,
which has no final component, panics (the `expect` in `add_extension`)
instead of returning an `InvalidPath` error value. -/
theorem claim_c5_cex :
    add_extension (strL "/") (strL ".bak") =
      RResult.panicked "this string is weird, no file name" := by
  rfl

/-- C5 (amended): for a source path with a final component,
`add_extension` appends the suffix to that final component only, keeping
the parent components unchanged; for a source with no final component it
panics (`expect` on a missing file name) rather than returning an
`InvalidPath` error. -/
theorem claim_c5 (p sfx : PathStr) (hsfx : '/' ∉ sfx) :
    (∀ name, fileName p = some name →
      add_extension p sfx = RResult.ok (withFileName p (name ++ sfx)) ∧
      parsePath (withFileName p (name ++ sfx)) =
        (parsePath p).dropLast ++ [name ++ sfx]) ∧
    (fileName p = none →
      add_extension p sfx = RResult.panicked "this string is weird, no file name") := by
  constructor
  · intro name hn
    obtain ⟨hdec, hwf, hdd⟩ := fileName_decomp p name hn
    have hwf2 : compWF (name ++ sfx) := by
      rcases hwf with ⟨hne, hns, hnd⟩
      refine ⟨by simp [hne], ?_, ?_⟩
      · intro hmem
        rcases List.mem_append.mp hmem with hm | hm
        · exact hns hm
        · exact hsfx hm
      · intro hdot
        cases sfx with
        | nil => exact hnd (by simpa using hdot)
        | cons c rest =>
          have h0 := congrArg List.length hdot
          simp only [List.length_append, List.length_cons] at h0
          have hname0 : name.length = 0 := by
            have h1 : (strL ".").length = 1 := by decide
            rw [h1] at h0
            omega
          exact hne (List.length_eq_zero.mp hname0)
    constructor
    · simp [add_extension, hn]
    · exact parse_withFileName p (name ++ sfx) hwf2
  · intro hn
    simp [add_extension, hn]

/-- C5 witness: appending `.bak` to `a/b` rewrites only the final
component, and the root path panics. -/
theorem claim_c5_witness :
    add_extension (strL "a/b") (strL ".bak") =
      RResult.ok (withFileName (strL "a/b") (strL "b" ++ strL ".bak")) ∧
    parsePath (withFileName (strL "a/b") (strL "b" ++ strL ".bak")) =
      (parsePath (strL "a/b")).dropLast ++ [strL "b" ++ strL ".bak"] ∧
    add_extension (strL "/") (strL ".bak") =
      RResult.panicked "this string is weird, no file name" :=
  ⟨((claim_c5 (strL "a/b") (strL ".bak") (by decide)).1 (strL "b") (by rfl)).1,
   ((claim_c5 (strL "a/b") (strL ".bak") (by decide)).1 (strL "b") (by rfl)).2,
   (claim_c5 (strL "/") (strL ".bak") (by decide)).2 (by rfl)⟩


/-- C7: mirroring a well-formed directory tree (unique child names at
every level, as on a real filesystem) with `copy_dir_all` a second time,
with the same source and destination, succeeds and leaves the
filesystem in exactly the state the first run produced, provided source
and destination do not overlap. -/
theorem claim_c7 (fs fs1 : Entry) (src dst : CPath) (srcKids : Kids)
    (hsrc : getE fs src = some (Entry.dir srcKids))
    (hwf : entryWF (Entry.dir srcKids) = true)
    (h1 : ¬ (dst <+: src)) (h2 : ¬ (src <+: dst))
    (hrun : copyDirAllS fs src dst = (RResult.ok (), fs1)) :
    copyDirAllS fs1 src dst = (RResult.ok (), fs1) := by
  simp only [entryWF, Bool.and_eq_true, decide_eq_true_eq] at hwf
  obtain ⟨hnd, hkwf⟩ := hwf
  unfold copyDirAllS at hrun
  cases hcd : createDirAllS fs dst with
  | error e => rw [hcd] at hrun; cases hrun
  | ok fsa =>
    rw [hcd] at hrun
    dsimp only at hrun
    have hsrca : getE fsa src = some (Entry.dir srcKids) := by
      rw [createDirAll_frame dst fs fsa src hcd h1 h2]
      exact hsrc
    rw [hsrca] at hrun
    obtain ⟨ds0, hdst0⟩ := createDirAll_dir_at dst fs fsa hcd
    rw [hdst0] at hrun
    dsimp only at hrun
    cases hmir : mirrorKids srcKids ds0 with
    | mk ds1 er =>
      cases er with
      | none =>
        rw [hmir] at hrun
        dsimp only at hrun
        have hfs1 : fs1 = forceSet fsa dst (Entry.dir ds1) := by
          injection hrun with hr1 hr2
          exact hr2.symm
        subst hfs1
        -- state after the first run
        have hdst1 : getE (forceSet fsa dst (Entry.dir ds1)) dst =
            some (Entry.dir ds1) := by
          have hs := getE_forceSet_sub dst fsa (Entry.dir ds1) []
          rw [List.append_nil] at hs
          rw [hs]
          rfl
        have hsrc1 : getE (forceSet fsa dst (Entry.dir ds1)) src =
            some (Entry.dir srcKids) := by
          rw [getE_forceSet_frame dst fsa (Entry.dir ds1) src h1 h2]
          exact hsrca
        -- the second run
        unfold copyDirAllS
        rw [createDirAll_id dst _ ds1 hdst1]
        dsimp only
        rw [hsrc1, hdst1]
        dsimp only
        rw [mirrorKids_idem srcKids ds0 hkwf hnd ds1 hmir]
        dsimp only
        rw [forceSet_id dst _ (Entry.dir ds1) hdst1]
      | some e =>
        rw [hmir] at hrun
        dsimp only at hrun
        injection hrun with hr1 hr2
        cases hr1

/-- C7 witness: mirroring the concrete nested directory `s` into `t`
twice; the second run returns success and the state reached after the
first run. -/
theorem claim_c7_witness :
    copyDirAllS (copyDirAllS fsE [strL "s"] [strL "t"]).2 [strL "s"] [strL "t"] =
      (RResult.ok (), (copyDirAllS fsE [strL "s"] [strL "t"]).2) :=
  claim_c7 fsE (copyDirAllS fsE [strL "s"] [strL "t"]).2 [strL "s"] [strL "t"] srcKidsE
    (by rfl) (by rfl) (by decide) (by decide) (by rfl)

/-- C2: backing up an existing regular file without compression produces
the artifact named by appending `.bak` to its file name, and restoring
that artifact into an existing output directory (fresh in the sense that
it does not already hold an entry with the source's name, and the
artifact path is not taken by a directory) recreates a file with the
source's file name and byte-identical content. -/
theorem claim_c2 (fs : Entry) (f outDir : PathStr) (content : Bytes) (name : Comp)
    (hf : getE fs (parsePath f) = some (Entry.file content))
    (hn : fileName f = some name)
    (hout : isDirO (getE fs (parsePath outDir)) = true)
    (hfresh1 : isDirO (getE fs ((parsePath f).dropLast ++ [name ++ strL ".bak"])) = false)
    (hfresh2 : getE fs (parsePath outDir ++ [name]) = none) :
    ∃ fs1 fs2,
      backup_file fs f false =
        (RResult.ok (withFileName f (name ++ strL ".bak")), fs1) ∧
      restore fs1 (withFileName f (name ++ strL ".bak")) outDir = (RResult.ok (), fs2) ∧
      getE fs2 (parsePath outDir ++ [name]) = some (Entry.file content) := by
  obtain ⟨hdec, hwfname, hdd⟩ := fileName_decomp f name hn
  have hwfbak : compWF (name ++ strL ".bak") := by
    rcases hwfname with ⟨hne, hns, hnd2⟩
    refine ⟨by simp [hne], ?_, ?_⟩
    · intro hmem
      rcases List.mem_append.mp hmem with hm | hm
      · exact hns hm
      · exact absurd hm (by decide)
    · intro hdot
      have h0 := congrArg List.length hdot
      simp only [List.length_append] at h0
      have h1 : (strL ".bak").length = 4 := by decide
      have h2 : (strL ".").length = 1 := by decide
      rw [h1, h2] at h0
      omega
  have hparsea : parsePath (withFileName f (name ++ strL ".bak")) =
      (parsePath f).dropLast ++ [name ++ strL ".bak"] :=
    parse_withFileName f (name ++ strL ".bak") hwfbak
  obtain ⟨dds, hdds⟩ := isDirO_some _ hout
  have hdlpre : (parsePath f).dropLast <+: parsePath f := by
    refine ⟨[name], ?_⟩
    exact hdec.symm
  have hnotaoc : ¬ ((parsePath f).dropLast ++ [name ++ strL ".bak"] <+: parsePath outDir) := by
    intro hpre
    by_cases heq : (parsePath f).dropLast ++ [name ++ strL ".bak"] = parsePath outDir
    · rw [heq, hdds] at hfresh1
      simp [isDirO] at hfresh1
    · obtain ⟨ds2, hds2⟩ := getE_some_anc (parsePath outDir) fs (Entry.dir dds) _ hdds hpre heq
      rw [hds2] at hfresh1
      simp [isDirO] at hfresh1
  have hchainA : ∀ q, q <+: (parsePath f).dropLast ++ [name ++ strL ".bak"] →
      q ≠ (parsePath f).dropLast ++ [name ++ strL ".bak"] →
      ∃ ds, getE fs q = some (Entry.dir ds) := by
    intro q hq hqne
    have hq2 : q <+: (parsePath f).dropLast := prefix_snoc_ne q _ _ hq hqne
    have hq3 : q <+: parsePath f := hq2.trans hdlpre
    have hq4 : q ≠ parsePath f := by
      intro he
      have hlen := hq2.length_le
      rw [he] at hlen
      have : (parsePath f).length = (parsePath f).dropLast.length + 1 := by
        conv_lhs => rw [hdec]
        simp
      omega
    exact getE_some_anc (parsePath f) fs (Entry.file content) q hf hq3 hq4
  have hset1 : (setAtD fs ((parsePath f).dropLast ++ [name ++ strL ".bak"])
      (Entry.file content)).isSome = true :=
    setAtD_isSome _ fs _ hchainA
  cases hset1' : setAtD fs ((parsePath f).dropLast ++ [name ++ strL ".bak"])
      (Entry.file content) with
  | none => rw [hset1'] at hset1; cases hset1
  | some fs1 =>
  have hadd : add_extension f (strL ".bak") =
      RResult.ok (withFileName f (name ++ strL ".bak")) := by
    simp [add_extension, hn]
  have hcopy1 : fsCopy fs (parsePath f) ((parsePath f).dropLast ++ [name ++ strL ".bak"]) =
      Except.ok fs1 := by
    simp only [fsCopy, hf, hfresh1, Bool.false_eq_true, if_false, hset1']
  have hbackup : backup_file fs f false =
      (RResult.ok (withFileName f (name ++ strL ".bak")), fs1) := by
    unfold backup_file
    rw [if_neg (by simp)]
    rw [hadd]
    dsimp only
    rw [hparsea, hcopy1]
  -- facts about the state after backup
  have hget1a : getE fs1 ((parsePath f).dropLast ++ [name ++ strL ".bak"]) =
      some (Entry.file content) := by
    have hs := getE_setAtD_sub _ fs (Entry.file content) fs1 [] hset1'
    rw [List.append_nil] at hs
    exact hs
  have hout1 : ∃ ds, getE fs1 (parsePath outDir) = some (Entry.dir ds) := by
    by_cases hqa : parsePath outDir <+: (parsePath f).dropLast ++ [name ++ strL ".bak"]
    · have hne2 : parsePath outDir ≠ (parsePath f).dropLast ++ [name ++ strL ".bak"] := by
        intro he
        rw [← he, hdds] at hfresh1
        simp [isDirO] at hfresh1
      exact (getE_setAtD_anc _ fs (Entry.file content) fs1 _ hset1' hqa hne2).2
    · rw [getE_setAtD_frame _ fs (Entry.file content) fs1 _ hset1' hnotaoc hqa]
      exact ⟨dds, hdds⟩
  obtain ⟨dds1, hdds1⟩ := hout1
  have hT_ne_a : parsePath outDir ++ [name] ≠
      (parsePath f).dropLast ++ [name ++ strL ".bak"] := by
    intro he
    have h1 := congrArg List.getLast? he
    rw [List.getLast?_concat, List.getLast?_concat] at h1
    have h2 : name = name ++ strL ".bak" := Option.some.inj h1
    have h3 := congrArg List.length h2
    rw [List.length_append] at h3
    have h4 : (strL ".bak").length = 4 := by decide
    omega
  have hnotaT : ¬ ((parsePath f).dropLast ++ [name ++ strL ".bak"] <+:
      parsePath outDir ++ [name]) := by
    intro hh
    exact hnotaoc (prefix_snoc_ne _ _ _ hh (fun he => hT_ne_a he.symm))
  have hnotTa : ¬ (parsePath outDir ++ [name] <+:
      (parsePath f).dropLast ++ [name ++ strL ".bak"]) := by
    intro hh
    have h2 : parsePath outDir ++ [name] <+: (parsePath f).dropLast :=
      prefix_snoc_ne _ _ _ hh hT_ne_a
    have h3 : parsePath outDir ++ [name] <+: parsePath f := h2.trans hdlpre
    have h4 : parsePath outDir ++ [name] ≠ parsePath f := by
      intro he
      have hlen := h2.length_le
      rw [he] at hlen
      have : (parsePath f).length = (parsePath f).dropLast.length + 1 := by
        conv_lhs => rw [hdec]
        simp
      omega
    obtain ⟨ds3, hds3⟩ := getE_some_anc (parsePath f) fs (Entry.file content) _ hf h3 h4
    rw [hds3] at hfresh2
    cases hfresh2
  have hgetT1 : getE fs1 (parsePath outDir ++ [name]) = none := by
    rw [getE_setAtD_frame _ fs (Entry.file content) fs1 _ hset1' hnotaT hnotTa]
    exact hfresh2
  have hchainT : ∀ q, q <+: parsePath outDir ++ [name] → q ≠ parsePath outDir ++ [name] →
      ∃ ds, getE fs1 q = some (Entry.dir ds) := by
    intro q hq hqne
    have hqoc : q <+: parsePath outDir := prefix_snoc_ne q _ _ hq hqne
    have hfsq : ∃ ds, getE fs q = some (Entry.dir ds) := by
      by_cases heq : q = parsePath outDir
      · rw [heq]; exact ⟨dds, hdds⟩
      · exact getE_some_anc (parsePath outDir) fs (Entry.dir dds) q hdds hqoc heq
    by_cases hqa : q <+: (parsePath f).dropLast ++ [name ++ strL ".bak"]
    · have hqnea : q ≠ (parsePath f).dropLast ++ [name ++ strL ".bak"] := by
        intro he
        obtain ⟨ds4, hds4⟩ := hfsq
        rw [he] at hds4
        rw [hds4] at hfresh1
        simp [isDirO] at hfresh1
      exact (getE_setAtD_anc _ fs (Entry.file content) fs1 q hset1' hqa hqnea).2
    · have hnotaq : ¬ ((parsePath f).dropLast ++ [name ++ strL ".bak"] <+: q) :=
        fun hh => hnotaoc (hh.trans hqoc)
      rw [getE_setAtD_frame _ fs (Entry.file content) fs1 q hset1' hnotaq hqa]
      exact hfsq
  have hset2 : (setAtD fs1 (parsePath outDir ++ [name]) (Entry.file content)).isSome = true :=
    setAtD_isSome _ fs1 _ hchainT
  cases hset2' : setAtD fs1 (parsePath outDir ++ [name]) (Entry.file content) with
  | none => rw [hset2'] at hset2; cases hset2
  | some fs2 =>
  have hcopy2 : fsCopy fs1 ((parsePath f).dropLast ++ [name ++ strL ".bak"])
      (parsePath outDir ++ [name]) = Except.ok fs2 := by
    simp only [fsCopy, hget1a, hgetT1, isDirO, Bool.false_eq_true, if_false, hset2']
  have hsuffixa : strL ".bak" <:+ withFileName f (name ++ strL ".bak") :=
    (List.suffix_append name (strL ".bak")).trans
      (pathJoin_suffix (joinComps (parsePath f).dropLast) (name ++ strL ".bak"))
  have hclass : classify (withFileName f (name ++ strL ".bak")) = ArtifactClass.plainFile :=
    classify_of_bak _ hsuffixa
  have hstema : withFileName f (name ++ strL ".bak") =
      withFileName f name ++ strL ".bak" := by
    unfold withFileName
    exact pathJoin_append (joinComps (parsePath f).dropLast) name (strL ".bak")
  have hrem : remove_extension (withFileName f (name ++ strL ".bak")) (strL "bak") =
      RResult.ok (withFileName f name) := by
    unfold remove_extension
    have hdot : ('.' :: strL "bak") = strL ".bak" := rfl
    rw [hdot, hstema, stripSuffix?_append]
  have hparsestem : parsePath (withFileName f name) = (parsePath f).dropLast ++ [name] :=
    parse_withFileName f name hwfname
  have hfnstem : fileName (withFileName f name) = some name := by
    unfold fileName
    rw [hparsestem, List.getLast?_concat]
    simp [hdd]
  have hrestore : restore fs1 (withFileName f (name ++ strL ".bak")) outDir =
      (RResult.ok (), fs2) := by
    unfold restore
    dsimp only
    rw [hparsea, hget1a, hdds1]
    dsimp only
    rw [hclass]
    dsimp only
    rw [hrem]
    dsimp only
    rw [hfnstem]
    dsimp only
    rw [hcopy2]
    rfl
  refine ⟨fs1, fs2, hbackup, hrestore, ?_⟩
  have hs := getE_setAtD_sub _ fs1 (Entry.file content) fs2 [] hset2'
  rw [List.append_nil] at hs
  exact hs

/-- C2 witness: the concrete file `f` with bytes `[7, 8]` survives the
uncompressed backup/restore round-trip into directory `out`. -/
theorem claim_c2_witness :
    getE (restore (backup_file fsC (strL "f") false).2
        (withFileName (strL "f") (strL "f" ++ strL ".bak")) (strL "out")).2
      (parsePath (strL "out") ++ [strL "f"]) = some (Entry.file [7, 8]) := by
  obtain ⟨fs1, fs2, hb, hr, hg⟩ :=
    claim_c2 fsC (strL "f") (strL "out") [7, 8] (strL "f")
      (by rfl) (by rfl) (by rfl) (by rfl) (by rfl)
  rw [hb]
  dsimp only
  rw [hr]
  exact hg

theorem dirChain_snoc (fs : Entry) (dl : CPath) (lastc x : Comp) (e : Entry)
    (hp : getE fs (dl ++ [lastc]) = some e) :
    ∀ q, q <+: dl ++ [x] → q ≠ dl ++ [x] → ∃ ds, getE fs q = some (Entry.dir ds) := by
  intro q hq hqne
  have hq2 : q <+: dl := prefix_snoc_ne q dl x hq hqne
  have hq3 : q <+: dl ++ [lastc] := hq2.trans (List.prefix_append dl [lastc])
  have hq4 : q ≠ dl ++ [lastc] := by
    intro he
    have hl := hq2.length_le
    rw [he] at hl
    simp at hl
  exact getE_some_anc _ fs e q hp hq3 hq4

theorem append_ne_self (name s : Comp) (hs : s ≠ []) : name ++ s ≠ name := by
  intro he
  have h0 := congrArg List.length he
  rw [List.length_append] at h0
  have h1 : s.length ≠ 0 := fun hh => hs (List.length_eq_zero.mp hh)
  omega

theorem snoc_ne_snoc (dl : CPath) (x y : Comp) (hxy : x ≠ y) :
    dl ++ [x] ≠ dl ++ [y] := by
  intro he
  have h1 : ([x] : CPath) = [y] := List.append_cancel_left he
  exact hxy (by injection h1)

theorem createDirAll_ok_fresh (p : CPath) : ∀ (fs : Entry),
    (∀ q, q <+: p → q ≠ p → ∃ ds, getE fs q = some (Entry.dir ds)) →
    getE fs p = none →
    ∃ fs1, createDirAllS fs p = Except.ok fs1 ∧ getE fs1 p = some (Entry.dir Kids.nil) := by
  induction p with
  | nil =>
    intro fs _ hnone
    have hg : getE fs [] = some fs := by cases fs <;> rfl
    rw [hg] at hnone
    cases hnone
  | cons c p2 ih =>
    intro fs hchain hnone
    obtain ⟨ds, hds⟩ := hchain [] List.nil_prefix (by simp)
    have hfs : fs = Entry.dir ds := by
      have hg : getE fs [] = some fs := by cases fs <;> rfl
      rw [hg] at hds
      exact Option.some.inj hds
    subst hfs
    rw [getE_dir_cons] at hnone
    cases hl : lookupC ds c with
    | none =>
      refine ⟨Entry.dir (setChild ds c (freshDirs p2)), ?_, ?_⟩
      · rw [createDirAll_dir_cons, hl]
      · rw [getE_dir_cons, lookupC_setChild_self, Option.some_bind]
        exact freshDirs_get p2
    | some e =>
      rw [hl, Option.some_bind] at hnone
      cases p2 with
      | nil =>
        have hg : getE e [] = some e := by cases e <;> rfl
        rw [hg] at hnone
        cases hnone
      | cons c2 p3 =>
        obtain ⟨ds2, hds2⟩ := hchain [c]
          (List.cons_prefix_cons.mpr ⟨rfl, List.nil_prefix⟩) (by simp)
        have he : e = Entry.dir ds2 := by
          rw [getE_dir_cons, hl, Option.some_bind] at hds2
          have hg : getE e [] = some e := by cases e <;> rfl
          rw [hg] at hds2
          exact Option.some.inj hds2
        subst he
        have hchain2 : ∀ q, q <+: c2 :: p3 → q ≠ c2 :: p3 →
            ∃ ds3, getE (Entry.dir ds2) q = some (Entry.dir ds3) := by
          intro q hq hqne
          have h3 := hchain (c :: q) (List.cons_prefix_cons.mpr ⟨rfl, hq⟩)
            (fun hh => hqne (by injection hh))
          obtain ⟨ds3, hds3⟩ := h3
          rw [getE_dir_cons, hl, Option.some_bind] at hds3
          exact ⟨ds3, hds3⟩
        obtain ⟨e2, hc1, hc2⟩ := ih (Entry.dir ds2) hchain2 hnone
        refine ⟨Entry.dir (setChild ds c e2), ?_, ?_⟩
        · rw [createDirAll_dir_cons, hl]
          dsimp only
          rw [hc1]
          rfl
        · rw [getE_dir_cons, lookupC_setChild_self, Option.some_bind]
          exact hc2

/-- C6, counterexample: a compressed backup of the nested file `d/b`
records the single archive entry under the name `d/b` — the full source
path handed to `append_path` — not under the source's file name `b` as
the claim states. -/
theorem claim_c6_cex :
    (backup_file fsD (strL "d/b") true).1 = RResult.ok (strL "d/b.tar.zstd") ∧
    getE (backup_file fsD (strL "d/b") true).2 (parsePath (strL "d/b.tar.zstd")) =
      some (Entry.archiveFile (Kids.cons (strL "d/b") (Entry.file [9]) Kids.nil)) ∧
    strL "d/b" ≠ strL "b" := by
  refine ⟨rfl, rfl, by decide⟩

theorem compWF_append (name sfx : Comp) (h : compWF name) (hsl : '/' ∉ sfx) :
    compWF (name ++ sfx) := by
  rcases h with ⟨hne, hns, hnd⟩
  refine ⟨by simp [hne], ?_, ?_⟩
  · intro hmem
    rcases List.mem_append.mp hmem with hm | hm
    · exact hns hm
    · exact hsl hm
  · intro hdot
    cases hsx : sfx with
    | nil => rw [hsx, List.append_nil] at hdot; exact hnd hdot
    | cons c rest =>
      rw [hsx] at hdot
      have h0 := congrArg List.length hdot
      simp only [List.length_append, List.length_cons] at h0
      have h2 : (strL ".").length = 1 := by decide
      rw [h2] at h0
      have h3 : name.length ≠ 0 := fun hh => hne (List.length_eq_zero.mp hh)
      omega

theorem snoc_prefix_snoc (dl : CPath) (x y : Comp) (h : dl ++ [x] <+: dl ++ [y]) :
    x = y := by
  have h2 := (List.prefix_append_right_inj dl).mp h
  exact (List.cons_prefix_cons.mp h2).1

/-- C6 (amended): without compression, backing up a file copies its bytes
to the artifact `name.bak` and backing up a directory mirrors it into
`name.bak.d`; with compression, both produce the artifact `name.tar.zstd`
holding a single archive entry whose recorded name is the full source
path string `p` itself (not the source's file name), carrying the file's
bytes or the directory's tree; in each case the artifact path is
returned. -/
theorem claim_c6 (fs : Entry) (p : PathStr) (name : Comp) (content : Bytes) (kids : Kids)
    (hn : fileName p = some name) :
    (getE fs (parsePath p) = some (Entry.file content) →
     isDirO (getE fs ((parsePath p).dropLast ++ [name ++ strL ".bak"])) = false →
     ∃ fs1, backup_file fs p false =
         (RResult.ok (withFileName p (name ++ strL ".bak")), fs1) ∧
       getE fs1 (parsePath (withFileName p (name ++ strL ".bak"))) =
         some (Entry.file content)) ∧
    (∀ ds1, getE fs (parsePath p) = some (Entry.dir kids) →
     getE fs ((parsePath p).dropLast ++ [name ++ strL ".bak.d"]) = none →
     mirrorKids kids Kids.nil = (ds1, none) →
     ∃ fs2, backup_dir fs p false =
         (RResult.ok (withFileName p (name ++ strL ".bak.d")), fs2) ∧
       getE fs2 (parsePath (withFileName p (name ++ strL ".bak.d"))) =
         some (Entry.dir ds1)) ∧
    (getE fs (parsePath p) = some (Entry.file content) →
     isDirO (getE fs ((parsePath p).dropLast ++ [name ++ strL ".tar.zstd"])) = false →
     ∃ fs3, backup_file fs p true =
         (RResult.ok (withFileName p (name ++ strL ".tar.zstd")), fs3) ∧
       getE fs3 (parsePath (withFileName p (name ++ strL ".tar.zstd"))) =
         some (Entry.archiveFile (Kids.cons p (Entry.file content) Kids.nil))) ∧
    (getE fs (parsePath p) = some (Entry.dir kids) →
     isDirO (getE fs ((parsePath p).dropLast ++ [name ++ strL ".tar.zstd"])) = false →
     ∃ fs4, backup_dir fs p true =
         (RResult.ok (withFileName p (name ++ strL ".tar.zstd")), fs4) ∧
       getE fs4 (parsePath (withFileName p (name ++ strL ".tar.zstd"))) =
         some (Entry.archiveFile (Kids.cons p (Entry.dir kids) Kids.nil))) := by
  obtain ⟨hdec, hwfname, hdd⟩ := fileName_decomp p name hn
  have hwfbak : compWF (name ++ strL ".bak") := compWF_append name _ hwfname (by decide)
  have hwfbakd : compWF (name ++ strL ".bak.d") := compWF_append name _ hwfname (by decide)
  have hwfz : compWF (name ++ strL ".tar.zstd") := compWF_append name _ hwfname (by decide)
  have hpbak := parse_withFileName p (name ++ strL ".bak") hwfbak
  have hpbakd := parse_withFileName p (name ++ strL ".bak.d") hwfbakd
  have hpz := parse_withFileName p (name ++ strL ".tar.zstd") hwfz
  have haddbak : add_extension p (strL ".bak") =
      RResult.ok (withFileName p (name ++ strL ".bak")) := by simp [add_extension, hn]
  have haddbakd : add_extension p (strL ".bak.d") =
      RResult.ok (withFileName p (name ++ strL ".bak.d")) := by simp [add_extension, hn]
  have haddz : add_extension p (strL ".tar.zstd") =
      RResult.ok (withFileName p (name ++ strL ".tar.zstd")) := by simp [add_extension, hn]
  refine ⟨?_, ?_, ?_, ?_⟩
  · -- (i) uncompressed file
    intro hf hfresh
    have hchain := dirChain_snoc fs (parsePath p).dropLast name (name ++ strL ".bak")
      (Entry.file content) (by rw [← hdec]; exact hf)
    have hset := setAtD_isSome _ fs (Entry.file content) hchain
    cases hset2 : setAtD fs ((parsePath p).dropLast ++ [name ++ strL ".bak"])
        (Entry.file content) with
    | none => rw [hset2] at hset; cases hset
    | some fs1 =>
      refine ⟨fs1, ?_, ?_⟩
      · unfold backup_file
        rw [if_neg (by simp)]
        rw [haddbak]
        dsimp only
        rw [hpbak]
        simp only [fsCopy, hf, hfresh, Bool.false_eq_true, if_false, hset2]
      · rw [hpbak]
        have hs := getE_setAtD_sub _ fs (Entry.file content) fs1 [] hset2
        rw [List.append_nil] at hs
        exact hs
  · -- (ii) uncompressed directory
    intro ds1 hf hfresh hmir
    have hchain := dirChain_snoc fs (parsePath p).dropLast name (name ++ strL ".bak.d")
      (Entry.dir kids) (by rw [← hdec]; exact hf)
    obtain ⟨fsa, hcre, hdst⟩ := createDirAll_ok_fresh _ fs hchain hfresh
    have hxne : (name ++ strL ".bak.d") ≠ name := append_ne_self name _ (by decide)
    obtain ⟨dl, hdldef⟩ : ∃ dl, (parsePath p).dropLast = dl := ⟨_, rfl⟩
    rw [hdldef] at hdec hchain hcre hdst hfresh hpbakd
    have hnp1 : ¬ (dl ++ [name ++ strL ".bak.d"] <+: parsePath p) := by
      intro hh
      rw [hdec] at hh
      exact hxne (snoc_prefix_snoc _ _ _ hh)
    have hnp2 : ¬ (parsePath p <+: dl ++ [name ++ strL ".bak.d"]) := by
      intro hh
      rw [hdec] at hh
      exact hxne (snoc_prefix_snoc _ _ _ hh).symm
    have hsrca : getE fsa (parsePath p) = some (Entry.dir kids) := by
      rw [createDirAll_frame _ fs fsa _ hcre hnp1 hnp2]
      exact hf
    have hcds : copyDirAllS fs (parsePath p)
        (dl ++ [name ++ strL ".bak.d"]) =
        (RResult.ok (), forceSet fsa (dl ++ [name ++ strL ".bak.d"])
          (Entry.dir ds1)) := by
      unfold copyDirAllS
      rw [hcre]
      dsimp only
      rw [hsrca]
      dsimp only
      rw [hdst]
      dsimp only
      rw [hmir]
    refine ⟨forceSet fsa (dl ++ [name ++ strL ".bak.d"])
      (Entry.dir ds1), ?_, ?_⟩
    · unfold backup_dir
      rw [if_neg (by simp)]
      rw [haddbakd]
      dsimp only
      rw [hpbakd, hcds]
    · rw [hpbakd]
      have hs := getE_forceSet_sub (dl ++ [name ++ strL ".bak.d"]) fsa (Entry.dir ds1) []
      rw [List.append_nil] at hs
      rw [hs]
      rfl
  · -- (iii) compressed file
    intro hf hfresh
    have hchain := dirChain_snoc fs (parsePath p).dropLast name (name ++ strL ".tar.zstd")
      (Entry.file content) (by rw [← hdec]; exact hf)
    have hsetA := setAtD_isSome _ fs (Entry.archiveFile Kids.nil) hchain
    cases hset2 : setAtD fs ((parsePath p).dropLast ++ [name ++ strL ".tar.zstd"])
        (Entry.archiveFile Kids.nil) with
    | none => rw [hset2] at hsetA; cases hsetA
    | some fsmid =>
      have hsetB := setAtD_isSome _ fs
        (Entry.archiveFile (Kids.cons p (Entry.file content) Kids.nil)) hchain
      cases hset3 : setAtD fs ((parsePath p).dropLast ++ [name ++ strL ".tar.zstd"])
          (Entry.archiveFile (Kids.cons p (Entry.file content) Kids.nil)) with
      | none => rw [hset3] at hsetB; cases hsetB
      | some fs3 =>
        refine ⟨fs3, ?_, ?_⟩
        · unfold backup_file
          rw [if_pos rfl]
          rw [haddz]
          dsimp only
          rw [hpz]
          rw [if_neg (by simp [hfresh])]
          rw [hset2]
          dsimp only
          rw [hf]
          dsimp only
          rw [hset3]
        · rw [hpz]
          have hs := getE_setAtD_sub _ fs
            (Entry.archiveFile (Kids.cons p (Entry.file content) Kids.nil)) fs3 [] hset3
          rw [List.append_nil] at hs
          exact hs
  · -- (iv) compressed directory
    intro hf hfresh
    have hchain := dirChain_snoc fs (parsePath p).dropLast name (name ++ strL ".tar.zstd")
      (Entry.dir kids) (by rw [← hdec]; exact hf)
    have hsetA := setAtD_isSome _ fs (Entry.archiveFile Kids.nil) hchain
    cases hset2 : setAtD fs ((parsePath p).dropLast ++ [name ++ strL ".tar.zstd"])
        (Entry.archiveFile Kids.nil) with
    | none => rw [hset2] at hsetA; cases hsetA
    | some fsmid =>
      have hsetB := setAtD_isSome _ fs
        (Entry.archiveFile (Kids.cons p (Entry.dir kids) Kids.nil)) hchain
      cases hset3 : setAtD fs ((parsePath p).dropLast ++ [name ++ strL ".tar.zstd"])
          (Entry.archiveFile (Kids.cons p (Entry.dir kids) Kids.nil)) with
      | none => rw [hset3] at hsetB; cases hsetB
      | some fs4 =>
        refine ⟨fs4, ?_, ?_⟩
        · unfold backup_dir
          rw [if_pos rfl]
          rw [haddz]
          dsimp only
          rw [hpz]
          rw [if_neg (by simp [hfresh])]
          rw [hset2]
          dsimp only
          rw [hf]
          dsimp only
          rw [hset3]
        · rw [hpz]
          have hs := getE_setAtD_sub _ fs
            (Entry.archiveFile (Kids.cons p (Entry.dir kids) Kids.nil)) fs4 [] hset3
          rw [List.append_nil] at hs
          exact hs

/-- C6 witness: the four backup modes applied to the concrete file `f`
and directory `d`, checking the produced artifacts and, for the
compressed ones, the entry name `f` respectively `d` (the path string
passed to the tar builder). -/
theorem claim_c6_witness :
    getE (backup_file fsF (strL "f") false).2 (parsePath (strL "f.bak")) =
      some (Entry.file [3]) ∧
    getE (backup_dir fsF (strL "d") false).2 (parsePath (strL "d.bak.d")) =
      some (Entry.dir (kidsOf [(strL "b", Entry.file [4])])) ∧
    getE (backup_file fsF (strL "f") true).2 (parsePath (strL "f.tar.zstd")) =
      some (Entry.archiveFile (Kids.cons (strL "f") (Entry.file [3]) Kids.nil)) ∧
    getE (backup_dir fsF (strL "d") true).2 (parsePath (strL "d.tar.zstd")) =
      some (Entry.archiveFile
        (Kids.cons (strL "d") (Entry.dir (kidsOf [(strL "b", Entry.file [4])]))
          Kids.nil)) := by
  have hc1 := claim_c6 fsF (strL "f") (strL "f") [3] Kids.nil (by rfl)
  have hc2 := claim_c6 fsF (strL "d") (strL "d") []
    (kidsOf [(strL "b", Entry.file [4])]) (by rfl)
  refine ⟨?_, ?_, ?_, ?_⟩
  · obtain ⟨fs1, hb, hg⟩ := hc1.1 (by rfl) (by rfl)
    rw [hb]
    exact hg
  · obtain ⟨fs2, hb, hg⟩ := hc2.2.1 (kidsOf [(strL "b", Entry.file [4])])
      (by rfl) (by rfl) (by rfl)
    rw [hb]
    exact hg
  · obtain ⟨fs3, hb, hg⟩ := hc1.2.2.1 (by rfl) (by rfl)
    rw [hb]
    exact hg
  · obtain ⟨fs4, hb, hg⟩ := hc2.2.2.2 (by rfl) (by rfl)
    rw [hb]
    exact hg

/-- C8: the confirmation loop never clears its input buffer, so after the
unrecognized answer `maybe` the following recognized answer `y` is read
as `maybey` and rejected — the loop never returns on this input, while
the claim expects `true`.  A recognized first answer still works: `y`
gives true, `n` gives false, and an empty answer is treated as negative. -/
theorem claim_c8 :
    confirm [strL "maybe", strL "y"] = none ∧
    confirm [strL "y"] = some true ∧
    confirm [strL "n"] = some false ∧
    confirm [strL ""] = some false := by
  refine ⟨?_, ?_, ?_, ?_⟩ <;> rfl

/-- C10: a path whose name ends in `bak` but not `.bak` (and not in the
archive suffixes) is dispatched to the `.bak` branch, where
`remove_extension` panics (`that path did not have that suffix`) instead
of returning an error. -/
theorem claim_c10 (fs : Entry) (p outDir : PathStr)
    (h1 : strL "bak" <:+ p) (h2 : ¬ (strL "tar.zstd" <:+ p))
    (h3 : ¬ (strL "tar.zst" <:+ p)) (h4 : ¬ (strL ".bak" <:+ p))
    (h5 : isFileO (getE fs (parsePath p)) = true)
    (h6 : isDirO (getE fs (parsePath outDir)) = true) :
    restore fs p outDir =
      (RResult.panicked "that path did not have that suffix", fs) := by
  unfold restore
  dsimp only
  rw [isFileO_not_none _ h5, isDirO_not_none _ h6]
  have hstrip : stripSuffix? p ('.' :: strL "bak") = none := by
    unfold stripSuffix?
    rw [if_neg]
    intro hc
    exact h4 hc
  simp only [Bool.false_eq_true, if_false, h6, Bool.not_true,
    classify_of_bak_nodot p h1 h2 h3, h5, Bool.not_true, if_false,
    remove_extension, hstrip]

/-- C10 witness: the concrete file `xbak` with output directory `out`
panics in `remove_extension`. -/
theorem claim_c10_witness :
    restore fsA (strL "xbak") (strL "out") =
      (RResult.panicked "that path did not have that suffix", fsA) :=
  claim_c10 fsA (strL "xbak") (strL "out") (by decide) (by decide) (by decide)
    (by decide) (by rfl) (by rfl)

/-- C9: for a restore invocation, under the hypotheses that the artifact
path names an existing entry, is non-empty, and does not lie inside the
output directory, deletion of the artifact is gated exactly as claimed:
(a) if `restore` fails, the whole invocation is that failure and the
artifact still exists; (b) with `delete = false` the state is exactly the
restore state and the artifact still exists; (c) with `delete = true` but
a negative confirmation the state is the restore state and the artifact
still exists; (d) with `delete = true`, a successful restore, and an
affirmative decision (the `-y` flag or a `yes` answer) the artifact is
gone afterwards; and (e) conversely the artifact is gone only when
restore succeeded, `delete = true`, and the decision was affirmative —
deletion never triggers on failure and never happens implicitly. -/
theorem claim_c9 (fs : Entry) (p outDir : PathStr) (delete flagYes : Bool)
    (answers : List (List Char)) (e0 : Entry)
    (hex : getE fs (parsePath p) = some e0)
    (hne : parsePath p ≠ [])
    (hal : ¬ (parsePath outDir <+: parsePath p)) :
    (((restore fs p outDir).1 ≠ RResult.ok () →
        mainRestore fs p outDir delete flagYes answers = restore fs p outDir ∧
        ∃ e2, getE (mainRestore fs p outDir delete flagYes answers).2
          (parsePath p) = some e2) ∧
     (delete = false →
        (mainRestore fs p outDir delete flagYes answers).2 =
          (restore fs p outDir).2 ∧
        ∃ e2, getE (mainRestore fs p outDir delete flagYes answers).2
          (parsePath p) = some e2) ∧
     (delete = true → flagYes = false → confirm answers = some false →
        (mainRestore fs p outDir delete flagYes answers).2 =
          (restore fs p outDir).2 ∧
        ∃ e2, getE (mainRestore fs p outDir delete flagYes answers).2
          (parsePath p) = some e2) ∧
     ((restore fs p outDir).1 = RResult.ok () → delete = true →
        (flagYes = true ∨ confirm answers = some true) →
        getE (mainRestore fs p outDir delete flagYes answers).2
          (parsePath p) = none) ∧
     (getE (mainRestore fs p outDir delete flagYes answers).2
          (parsePath p) = none →
        (restore fs p outDir).1 = RResult.ok () ∧ delete = true ∧
        (flagYes = true ∨ confirm answers = some true))) := by
  obtain ⟨e1, he1, _⟩ := restore_preservedOutside fs p outDir (parsePath p) e0 hal hex
  rcases hres : restore fs p outDir with ⟨r1, fs1⟩
  rw [hres] at he1
  dsimp only at he1
  cases r1 with
  | ok u =>
    cases u
    obtain ⟨er, her, hremv⟩ := restore_ok_removable fs fs1 p outDir hal hres
    have hdel := recursiveRemoveS_removes fs1 (parsePath p) er her hremv hne
    cases delete with
    | false =>
      have hM : mainRestore fs p outDir false flagYes answers =
          (RResult.ok (), fs1) := by
        simp [mainRestore, hres]
      rw [hM]
      refine ⟨?_, ?_, ?_, ?_, ?_⟩
      · intro _; exact ⟨rfl, ⟨e1, he1⟩⟩
      · intro _; exact ⟨rfl, ⟨e1, he1⟩⟩
      · intro hd; cases hd
      · intro _ hd; cases hd
      · intro hnone
        dsimp only at hnone
        rw [he1] at hnone
        cases hnone
    | true =>
      cases flagYes with
      | true =>
        have hM : mainRestore fs p outDir true true answers =
            recursiveRemoveS fs1 (parsePath p) := by
          simp [mainRestore, hres]
        rw [hM]
        refine ⟨?_, ?_, ?_, ?_, ?_⟩
        · intro hno; exact absurd rfl hno
        · intro hd; cases hd
        · intro _ hf; cases hf
        · intro _ _ _; exact hdel
        · intro _; exact ⟨rfl, rfl, Or.inl rfl⟩
      | false =>
        rcases hc : confirm answers with _ | b
        · have hM : mainRestore fs p outDir true false answers =
              (RResult.diverged, fs1) := by
            simp [mainRestore, hres, hc]
          rw [hM]
          refine ⟨?_, ?_, ?_, ?_, ?_⟩
          · intro hno; exact absurd rfl hno
          · intro hd; cases hd
          · intro _ _ hcf; cases hcf
          · intro _ _ hor
            rcases hor with hf | hct
            · cases hf
            · cases hct
          · intro hnone
            dsimp only at hnone
            rw [he1] at hnone
            cases hnone
        · cases b with
          | true =>
            have hM : mainRestore fs p outDir true false answers =
                recursiveRemoveS fs1 (parsePath p) := by
              simp [mainRestore, hres, hc]
            rw [hM]
            refine ⟨?_, ?_, ?_, ?_, ?_⟩
            · intro hno; exact absurd rfl hno
            · intro hd; cases hd
            · intro _ _ hcf; simp at hcf
            · intro _ _ _; exact hdel
            · intro _; exact ⟨rfl, rfl, Or.inr rfl⟩
          | false =>
            have hM : mainRestore fs p outDir true false answers =
                (RResult.ok (), fs1) := by
              simp [mainRestore, hres, hc]
            rw [hM]
            refine ⟨?_, ?_, ?_, ?_, ?_⟩
            · intro hno; exact absurd rfl hno
            · intro hd; cases hd
            · intro _ _ _; exact ⟨rfl, ⟨e1, he1⟩⟩
            · intro _ _ hor
              rcases hor with hf | hct
              · cases hf
              · simp at hct
            · intro hnone
              dsimp only at hnone
              rw [he1] at hnone
              cases hnone
  | err k =>
    have hM : mainRestore fs p outDir delete flagYes answers =
        (RResult.err k, fs1) := by
      simp [mainRestore, hres]
    rw [hM]
    refine ⟨?_, ?_, ?_, ?_, ?_⟩
    · intro _; exact ⟨rfl, ⟨e1, he1⟩⟩
    · intro _; exact ⟨rfl, ⟨e1, he1⟩⟩
    · intro _ _ _; exact ⟨rfl, ⟨e1, he1⟩⟩
    · intro hok; dsimp only at hok; cases hok
    · intro hnone
      dsimp only at hnone
      rw [he1] at hnone
      cases hnone
  | panicked s =>
    have hM : mainRestore fs p outDir delete flagYes answers =
        (RResult.panicked s, fs1) := by
      simp [mainRestore, hres]
    rw [hM]
    refine ⟨?_, ?_, ?_, ?_, ?_⟩
    · intro _; exact ⟨rfl, ⟨e1, he1⟩⟩
    · intro _; exact ⟨rfl, ⟨e1, he1⟩⟩
    · intro _ _ _; exact ⟨rfl, ⟨e1, he1⟩⟩
    · intro hok; dsimp only at hok; cases hok
    · intro hnone
      dsimp only at hnone
      rw [he1] at hnone
      cases hnone
  | diverged =>
    have hM : mainRestore fs p outDir delete flagYes answers =
        (RResult.diverged, fs1) := by
      simp [mainRestore, hres]
    rw [hM]
    refine ⟨?_, ?_, ?_, ?_, ?_⟩
    · intro _; exact ⟨rfl, ⟨e1, he1⟩⟩
    · intro _; exact ⟨rfl, ⟨e1, he1⟩⟩
    · intro _ _ _; exact ⟨rfl, ⟨e1, he1⟩⟩
    · intro hok; dsimp only at hok; cases hok
    · intro hnone
      dsimp only at hnone
      rw [he1] at hnone
      cases hnone

/-- C9 witness: the concrete artifact `f.bak` restored into directory
`o` with `delete = true` and the `-y` flag is gone afterwards. -/
theorem claim_c9_witness :
    getE (mainRestore fsG (strL "f.bak") (strL "o") true true []).2
      (parsePath (strL "f.bak")) = none :=
  (claim_c9 fsG (strL "f.bak") (strL "o") true true [] (Entry.file [1])
      (by rfl) (by decide) (by decide)).2.2.2.1 rfl rfl (Or.inl rfl)

end Loppler
